import Mathlib

/-!
# Verification of the tree-decomposition homomorphism-counting DP

Shallow embedding of the `count-graph-homs` repository: the base-`k`
positional mapping codec (`help_functions.py`), the dynamic-programming
engine over nice tree decompositions
(`local_hom_count_better_int_dict.py`, `local_hom_count_best.py`,
`local_hom_count_int.py`), and the brute-force enumerator
(`local_hom_count.py`).
-/

namespace CountGraphHoms

/-! ## The mapping codec (`help_functions.py`) -/

/-- `extract_bag_vertex(mapping, index, graph_size)`:
`mapping // (graph_size ** index) % graph_size`. -/
def extract_bag_vertex (mapping index graph_size : ℕ) : ℕ :=
  mapping / graph_size ^ index % graph_size

/-- `add_vertex_into_mapping(new_vertex, mapping, index, graph_size)`:
`graph_size * left_digits + temp * new_vertex + right_digits` where
`temp = graph_size ** index`, `right_digits = mapping % temp`,
`left_digits = mapping - right_digits`. -/
def add_vertex_into_mapping (new_vertex mapping index graph_size : ℕ) : ℕ :=
  graph_size * (mapping - mapping % graph_size ^ index)
    + graph_size ^ index * new_vertex + mapping % graph_size ^ index

/-- `remove_vertex_from_mapping(mapping, index, graph_size)`:
`left_digits // graph_size + right_digits` where
`left_digits = mapping - (mapping % graph_size ** (index + 1))` and
`right_digits = mapping % graph_size ** index`. -/
def remove_vertex_from_mapping (mapping index graph_size : ℕ) : ℕ :=
  (mapping - mapping % graph_size ^ (index + 1)) / graph_size
    + mapping % graph_size ^ index

/-! ### Arithmetic characterisation of the codec -/

theorem add_vertex_eq (d p i k : ℕ) :
    add_vertex_into_mapping d p i k =
      k ^ (i + 1) * (p / k ^ i) + k ^ i * d + p % k ^ i := by
  unfold add_vertex_into_mapping
  have h := Nat.div_add_mod p (k ^ i)
  have hsub : p - p % k ^ i = k ^ i * (p / k ^ i) := by omega
  rw [hsub]
  ring

theorem extract_of_split (A d r i k : ℕ) (hr : r < k ^ i) :
    extract_bag_vertex (k ^ (i + 1) * A + k ^ i * d + r) i k = d % k := by
  have hki : 0 < k ^ i := Nat.lt_of_le_of_lt (Nat.zero_le r) hr
  show (k ^ (i + 1) * A + k ^ i * d + r) / k ^ i % k = d % k
  have hsplit : k ^ (i + 1) * A + k ^ i * d + r = k ^ i * (k * A + d) + r := by
    ring
  rw [hsplit, Nat.mul_add_div hki, Nat.div_eq_of_lt hr, Nat.add_zero,
    Nat.mul_add_mod]

theorem mod_low_of_split (A d r i k : ℕ) (hr : r < k ^ i) :
    (k ^ (i + 1) * A + k ^ i * d + r) % k ^ i = r := by
  have hsplit : k ^ (i + 1) * A + k ^ i * d + r = k ^ i * (k * A + d) + r := by
    ring
  rw [hsplit, Nat.mul_add_mod, Nat.mod_eq_of_lt hr]

theorem pow_digit_bound (d r i k : ℕ) (hr : r < k ^ i) (hd : d < k) :
    k ^ i * d + r < k ^ (i + 1) := by
  have h1 : k ^ i * d + r < k ^ i * (d + 1) := by
    rw [Nat.mul_add, Nat.mul_one]; omega
  have h2 : k ^ i * (d + 1) ≤ k ^ i * k := by
    apply Nat.mul_le_mul_left; omega
  calc k ^ i * d + r < k ^ i * (d + 1) := h1
    _ ≤ k ^ i * k := h2
    _ = k ^ (i + 1) := by rw [pow_succ]

theorem mod_high_of_split (A d r i k : ℕ) (hr : r < k ^ i) (hd : d < k) :
    (k ^ (i + 1) * A + k ^ i * d + r) % k ^ (i + 1) = k ^ i * d + r := by
  have hlt : k ^ i * d + r < k ^ (i + 1) := pow_digit_bound d r i k hr hd
  have hsplit : k ^ (i + 1) * A + k ^ i * d + r =
      k ^ (i + 1) * A + (k ^ i * d + r) := by ring
  rw [hsplit, Nat.mul_add_mod, Nat.mod_eq_of_lt hlt]

theorem div_high_of_split (A d r i k : ℕ) (hr : r < k ^ i) (hd : d < k) :
    (k ^ (i + 1) * A + k ^ i * d + r) / k ^ (i + 1) = A := by
  have hki : 0 < k ^ i := Nat.lt_of_le_of_lt (Nat.zero_le r) hr
  have hki1 : 0 < k ^ (i + 1) := by
    rw [pow_succ]; exact Nat.mul_pos hki (by
      rcases Nat.eq_zero_or_pos k with h | h
      · subst h; simp at hd
      · exact h)
  have hlt : k ^ i * d + r < k ^ (i + 1) := pow_digit_bound d r i k hr hd
  have hsplit : k ^ (i + 1) * A + k ^ i * d + r =
      k ^ (i + 1) * A + (k ^ i * d + r) := by ring
  rw [hsplit, Nat.mul_add_div hki1, Nat.div_eq_of_lt hlt, Nat.add_zero]

/-- General behaviour of `remove` after `insert`, for an arbitrary
(possibly out-of-range) digit `d`. -/
theorem remove_add_vertex_general (d p i k : ℕ) (hk : 0 < k) :
    remove_vertex_from_mapping (add_vertex_into_mapping d p i k) i k =
      p + d / k * k ^ i := by
  have hki : 0 < k ^ i := by positivity
  have hd0 : d % k < k := Nat.mod_lt _ hk
  have hdecomp : d = k * (d / k) + d % k := by
    have := Nat.div_add_mod d k; omega
  have hr : p % k ^ i < k ^ i := Nat.mod_lt _ hki
  have hq : add_vertex_into_mapping d p i k =
      k ^ (i + 1) * (p / k ^ i + d / k) + k ^ i * (d % k) + p % k ^ i := by
    rw [add_vertex_eq]
    calc k ^ (i + 1) * (p / k ^ i) + k ^ i * d + p % k ^ i
        = k ^ (i + 1) * (p / k ^ i) + k ^ i * (k * (d / k) + d % k) + p % k ^ i := by
          rw [← hdecomp]
      _ = k ^ (i + 1) * (p / k ^ i + d / k) + k ^ i * (d % k) + p % k ^ i := by
          ring
  rw [hq]
  show (_ - _ % k ^ (i + 1)) / k + _ % k ^ i = _
  rw [mod_high_of_split _ _ _ _ _ hr hd0, mod_low_of_split _ _ _ _ _ hr]
  have hsub : k ^ (i + 1) * (p / k ^ i + d / k) + k ^ i * (d % k) + p % k ^ i -
      (k ^ i * (d % k) + p % k ^ i) = k ^ (i + 1) * (p / k ^ i + d / k) := by
    apply Nat.sub_eq_of_eq_add
    ring
  rw [hsub]
  have hdiv : k ^ (i + 1) * (p / k ^ i + d / k) / k =
      k ^ i * (p / k ^ i + d / k) := by
    rw [pow_succ, Nat.mul_comm (k ^ i) k, Nat.mul_assoc,
      Nat.mul_div_cancel_left _ hk]
  rw [hdiv]
  have hp := Nat.div_add_mod p (k ^ i)
  calc k ^ i * (p / k ^ i + d / k) + p % k ^ i
      = (k ^ i * (p / k ^ i) + p % k ^ i) + d / k * k ^ i := by ring
    _ = p + d / k * k ^ i := by rw [hp]

/-- General behaviour of `extract` after `insert`: the stored digit is
`d % k`. -/
theorem extract_add_vertex_general (d p i k : ℕ) (hk : 0 < k) :
    extract_bag_vertex (add_vertex_into_mapping d p i k) i k = d % k := by
  have hki : 0 < k ^ i := by positivity
  have hr : p % k ^ i < k ^ i := Nat.mod_lt _ hki
  rw [add_vertex_eq, extract_of_split _ _ _ _ _ hr]

theorem remove_add_vertex (d p i k : ℕ) (hd : d < k) :
    remove_vertex_from_mapping (add_vertex_into_mapping d p i k) i k = p := by
  have hk : 0 < k := by omega
  rw [remove_add_vertex_general d p i k hk, Nat.div_eq_of_lt hd]
  simp

theorem extract_add_vertex (d p i k : ℕ) (hd : d < k) :
    extract_bag_vertex (add_vertex_into_mapping d p i k) i k = d := by
  have hk : 0 < k := by omega
  rw [extract_add_vertex_general d p i k hk, Nat.mod_eq_of_lt hd]

/-- Every number splits into its digits above position `i`, its `i`-th
digit and its digits below position `i`. -/
theorem digit_split (q i k : ℕ) :
    q = k ^ (i + 1) * (q / k ^ i / k) + k ^ i * (q / k ^ i % k) + q % k ^ i := by
  have e1 := Nat.div_add_mod q (k ^ i)
  have e2 := Nat.div_add_mod (q / k ^ i) k
  have h : k ^ (i + 1) * (q / k ^ i / k) + k ^ i * (q / k ^ i % k) + q % k ^ i =
      k ^ i * (k * (q / k ^ i / k) + q / k ^ i % k) + q % k ^ i := by
    rw [pow_succ]; ring
  rw [h, e2, e1]

/-- Every number decomposes as an insertion of its `i`-th digit. -/
theorem add_vertex_remove_extract (q i k : ℕ) (hk : 0 < k) :
    add_vertex_into_mapping (extract_bag_vertex q i k)
      (remove_vertex_from_mapping q i k) i k = q := by
  have hki : 0 < k ^ i := by positivity
  have hrlt : q % k ^ i < k ^ i := Nat.mod_lt _ hki
  have helt : q / k ^ i % k < k := Nat.mod_lt _ hk
  have hqsplit := digit_split q i k
  have hmodhigh : q % k ^ (i + 1) =
      k ^ i * (q / k ^ i % k) + q % k ^ i := by
    conv_lhs => rw [hqsplit]
    rw [mod_high_of_split _ _ _ _ _ hrlt helt]
  have hsub : q - (k ^ i * (q / k ^ i % k) + q % k ^ i) =
      k ^ (i + 1) * (q / k ^ i / k) := by
    apply Nat.sub_eq_of_eq_add
    conv_lhs => rw [hqsplit]
    ring
  have hrem : remove_vertex_from_mapping q i k =
      k ^ i * (q / k ^ i / k) + q % k ^ i := by
    show (q - q % k ^ (i + 1)) / k + q % k ^ i = _
    rw [hmodhigh, hsub]
    have hdiv : k ^ (i + 1) * (q / k ^ i / k) / k = k ^ i * (q / k ^ i / k) := by
      rw [pow_succ, Nat.mul_comm (k ^ i) k, Nat.mul_assoc,
        Nat.mul_div_cancel_left _ hk]
    rw [hdiv]
  have hext : extract_bag_vertex q i k = q / k ^ i % k := rfl
  rw [hrem, hext, add_vertex_eq]
  have hdiv2 : (k ^ i * (q / k ^ i / k) + q % k ^ i) / k ^ i = q / k ^ i / k := by
    rw [Nat.mul_add_div hki, Nat.div_eq_of_lt hrlt, Nat.add_zero]
  have hmod2 : (k ^ i * (q / k ^ i / k) + q % k ^ i) % k ^ i = q % k ^ i := by
    rw [Nat.mul_add_mod, Nat.mod_eq_of_lt hrlt]
  rw [hdiv2, hmod2]
  exact hqsplit.symm


/-- Inserting a digit into a mapping with `B` digits stays below `k ^ (B + 1)`. -/
theorem add_vertex_lt (d p i k B : ℕ) (hp : p < k ^ B) (hd : d < k)
    (hi : i ≤ B) :
    add_vertex_into_mapping d p i k < k ^ (B + 1) := by
  have hk : 0 < k := by omega
  have hki : 0 < k ^ i := by positivity
  have hr : p % k ^ i < k ^ i := Nat.mod_lt _ hki
  have hA : p / k ^ i < k ^ (B - i) := by
    apply Nat.div_lt_of_lt_mul
    calc p < k ^ B := hp
      _ = k ^ (B - i) * k ^ i := by rw [← pow_add]; congr 1; omega
      _ = k ^ i * k ^ (B - i) := by ring
  rw [add_vertex_eq]
  have h1 : k ^ (i + 1) * (p / k ^ i) + k ^ i * d + p % k ^ i <
      k ^ (i + 1) * (p / k ^ i) + k ^ (i + 1) := by
    have := pow_digit_bound d (p % k ^ i) i k hr hd
    omega
  have h2 : k ^ (i + 1) * (p / k ^ i) + k ^ (i + 1) =
      k ^ (i + 1) * (p / k ^ i + 1) := by ring
  have h3 : k ^ (i + 1) * (p / k ^ i + 1) ≤ k ^ (i + 1) * k ^ (B - i) := by
    apply Nat.mul_le_mul_left; omega
  have h4 : k ^ (i + 1) * k ^ (B - i) = k ^ (B + 1) := by
    rw [← pow_add]; congr 1; omega
  omega

/-- Inserting at position `0` shifts the whole mapping. -/
theorem add_vertex_zero (d p k : ℕ) : add_vertex_into_mapping d p 0 k = k * p + d := by
  unfold add_vertex_into_mapping
  simp [Nat.mod_one]

/-- Inserting at position `i + 1` commutes with peeling the lowest digit. -/
theorem add_vertex_succ (d a m i k : ℕ) (ha : a < k) :
    add_vertex_into_mapping d (a + k * m) (i + 1) k =
      a + k * add_vertex_into_mapping d m i k := by
  have hk : 0 < k := by omega
  have hki : 0 < k ^ i := by positivity
  have hmr : m % k ^ i < k ^ i := Nat.mod_lt _ hki
  have hdiv : (a + k * m) / k ^ (i + 1) = m / k ^ i := by
    rw [pow_succ, Nat.mul_comm (k ^ i) k, ← Nat.div_div_eq_div_mul]
    congr 1
    rw [Nat.add_mul_div_left _ _ hk, Nat.div_eq_of_lt ha, Nat.zero_add]
  have hmod : (a + k * m) % k ^ (i + 1) = a + k * (m % k ^ i) := by
    have hme := Nat.div_add_mod m (k ^ i)
    have hsplit : a + k * m = k ^ (i + 1) * (m / k ^ i) + (a + k * (m % k ^ i)) := by
      calc a + k * m = a + k * (k ^ i * (m / k ^ i) + m % k ^ i) := by rw [hme]
        _ = k ^ (i + 1) * (m / k ^ i) + (a + k * (m % k ^ i)) := by
            rw [pow_succ]; ring
    have hlt : a + k * (m % k ^ i) < k ^ (i + 1) := by
      have h1 : k * (m % k ^ i) + k ≤ k * k ^ i := by
        calc k * (m % k ^ i) + k = k * (m % k ^ i + 1) := by ring
          _ ≤ k * k ^ i := by apply Nat.mul_le_mul_left; omega
      calc a + k * (m % k ^ i) < k + k * (m % k ^ i) := by omega
        _ ≤ k * k ^ i := by omega
        _ = k ^ (i + 1) := by rw [pow_succ]; ring
    rw [hsplit, Nat.mul_add_mod, Nat.mod_eq_of_lt hlt]
  rw [add_vertex_eq, add_vertex_eq, hdiv, hmod]
  ring

/-! ## Graphs

Pattern and target graphs: simple undirected graphs on vertex set
`0 .. n-1`, given by a vertex count and a Boolean adjacency predicate. -/

structure FinGraph where
  n : ℕ
  adj : ℕ → ℕ → Bool

/-- The adjacency relation is symmetric on the vertex range (part of the
`_scream_if_not_simple` precondition: the graph is undirected). -/
def FinGraph.SymmOn (G : FinGraph) : Prop :=
  ∀ u < G.n, ∀ v < G.n, G.adj u v = G.adj v u

/-- No self-loops on the vertex range (part of the
`_scream_if_not_simple` precondition: the graph is simple). -/
def FinGraph.LooplessOn (G : FinGraph) : Prop :=
  ∀ u < G.n, G.adj u u = false

/-- The edge list of a graph, every undirected edge listed once as an
ordered pair `(u, v)` with `u < v` (Sage's `G.edges(labels=False)`). -/
def FinGraph.edges (G : FinGraph) : List (ℕ × ℕ) :=
  (List.range G.n).flatMap (fun u =>
    ((List.range G.n).filter (fun v => decide (u < v) && G.adj u v)).map
      (fun v => (u, v)))

/-- `is_homomorphism` from `local_hom_count.py`: every edge of `G` is
mapped to an edge of `H`. -/
def is_homomorphism (G H : FinGraph) (mapping : ℕ → ℕ) : Bool :=
  G.edges.all (fun e => H.adj (mapping e.1) (mapping e.2))

/-- Brute-force enumeration of all `|V(H)| ^ |V(G)|` maps
(`enumerate_homomorphisms` from `local_hom_count.py`), counting the
homomorphisms; maps are represented by their base-`|V(H)|` codes. -/
def count_homomorphisms_brute (G H : FinGraph) : ℕ :=
  ((List.range (H.n ^ G.n)).filter (fun c =>
    is_homomorphism G H (fun v => extract_bag_vertex c v H.n))).length

/-! ## Nice tree decompositions

A rooted nice tree decomposition of the pattern graph, built bottom-up
from the four node kinds produced by `label_nice_tree_decomposition`
(`nice_tree_decomp.py`).  A bag is represented by its canonical sorted
vertex tuple (Sage `Set` iteration order). -/

inductive NTD where
  | leaf : NTD
  | intro (x : ℕ) (c : NTD) : NTD
  | forget (x : ℕ) (c : NTD) : NTD
  | join (l r : NTD) : NTD

/-- Insert a vertex into a sorted bag tuple, keeping it sorted. -/
def insertSorted (x : ℕ) : List ℕ → List ℕ
  | [] => [x]
  | a :: l => if x ≤ a then x :: a :: l else a :: insertSorted x l

/-- Position of a vertex in a bag tuple (Python's `tuple.index`). -/
def bagIndex (x : ℕ) : List ℕ → ℕ
  | [] => 0
  | a :: l => if a = x then 0 else bagIndex x l + 1

/-- The bag of a node, as its canonical sorted vertex tuple. -/
def NTD.bagL : NTD → List ℕ
  | .leaf => []
  | .intro x c => insertSorted x c.bagL
  | .forget x c => c.bagL.erase x
  | .join l _ => l.bagL

/-- All vertices appearing in some bag of the subtree. -/
def NTD.vertsL : NTD → List ℕ
  | .leaf => []
  | .intro x c => x :: c.vertsL
  | .forget _ c => c.vertsL
  | .join l r => l.vertsL ++ r.vertsL

/-- Structural invariants of a nice tree decomposition of `G`
(the tree-decomposition axioms restricted to the subtree): an introduced
vertex is a fresh pattern vertex not seen in the child's subtree, a
forgotten vertex lies in the child's bag, and the two subtrees of a join
carry the same bag and overlap only inside it (vertex-connectivity
axiom). -/
def NTD.validB (G : FinGraph) : NTD → Bool
  | .leaf => true
  | .intro x c => c.validB G && decide (x < G.n) && !(decide (x ∈ c.vertsL))
  | .forget x c => c.validB G && decide (x ∈ c.bagL)
  | .join l r => l.validB G && r.validB G && decide (l.bagL = r.bagL) &&
      decide (∀ v ∈ l.vertsL, v ∈ r.vertsL → v ∈ l.bagL)

/-- An edge of `G` is covered in the subtree iff both endpoints lie in a
common bag of the subtree. -/
def NTD.covered (G : FinGraph) : NTD → ℕ → ℕ → Bool
  | .leaf, _, _ => false
  | .intro x c, u, v =>
      (decide (u ∈ insertSorted x c.bagL) && decide (v ∈ insertSorted x c.bagL)
        && G.adj u v) || c.covered G u v
  | .forget x c, u, v =>
      (decide (u ∈ c.bagL.erase x) && decide (v ∈ c.bagL.erase x)
        && G.adj u v) || c.covered G u v
  | .join l r, u, v =>
      (decide (u ∈ l.bagL) && decide (v ∈ l.bagL) && G.adj u v)
        || l.covered G u v || r.covered G u v

/-! ## The DP engine (`local_hom_count_better_int_dict.py`) -/

/-- `is_valid_mapping(mapped_intro_vtx, mapped_nbhrs, target_graph)`:
the candidate image is adjacent in `H` to every mapped neighbour. -/
def is_valid_mapping (mapped_intro_vtx : ℕ) (mapped_nbhrs : List ℕ)
    (target_graph : FinGraph) : Bool :=
  mapped_nbhrs.all (fun vtx => target_graph.adj mapped_intro_vtx vtx)

/-- `node_nbhs_in_bag` of `_add_intro_node_int_pre`: the positions in the
child's bag tuple whose vertex is adjacent in `G` to the introduced
vertex. -/
def introNbhs (G : FinGraph) (childBag : List ℕ) (x : ℕ) : List ℕ :=
  (List.range childBag.length).filter (fun j => G.adj x (childBag.getD j 0))

/-- The inner loop of `_add_intro_node_int_pre` over the candidate target
vertices: the running write index starts at `base` and advances by `K`
per candidate; valid candidates store `val`. -/
def introInner (H : FinGraph) (nbrs : List ℕ) (base K val : ℕ)
    (k : ℕ) (acc : List ℕ) : List ℕ :=
  (List.range k).foldl (fun acc2 t =>
    if is_valid_mapping t nbrs H then acc2.set (base + t * K) val else acc2)
    acc

/-- The outer loop of `_add_intro_node_int_pre` over the first `M` encoded
child assignments. -/
def introLoop (G H : FinGraph) (childBag : List ℕ) (x : ℕ)
    (child : List ℕ) (M : ℕ) (acc : List ℕ) : List ℕ :=
  (List.range M).foldl (fun acc mapped =>
    introInner H
      ((introNbhs G childBag x).map (fun j => extract_bag_vertex mapped j H.n))
      (add_vertex_into_mapping 0 mapped (bagIndex x (insertSorted x childBag)) H.n)
      (H.n ^ bagIndex x (insertSorted x childBag))
      (child.getD mapped 0) H.n acc) acc

/-- `_add_intro_node_int_pre`: starting from an all-zero vector of length
`k ^ |bag(n)|`, loop over all encoded assignments of the child's table and
all candidate targets, storing the child count at every valid write
index. -/
def introTable (G H : FinGraph) (childBag : List ℕ) (x : ℕ)
    (child : List ℕ) : List ℕ :=
  introLoop G H childBag x child child.length
    (List.replicate (H.n ^ (insertSorted x childBag).length) 0)

/-- `_add_forget_node_int_pre`: each cell sums the child's cells over all
candidate images of the forgotten vertex; the running read index starts at
`add_vertex_into_mapping(0, mapping, j, k)` and advances by `k ^ j`. -/
def forgetTable (H : FinGraph) (childBag : List ℕ) (x : ℕ)
    (child : List ℕ) : List ℕ :=
  (List.range (H.n ^ (childBag.erase x).length)).map (fun mapping =>
    ((List.range H.n).map (fun t =>
      child.getD (add_vertex_into_mapping 0 mapping (bagIndex x childBag) H.n
        + t * H.n ^ bagIndex x childBag) 0)).sum)

/-- `_add_join_node_int` / `_add_join_node_int_pre`: pointwise product of
the two children's tables. -/
def joinTable (left right : List ℕ) : List ℕ :=
  List.zipWith (fun left_count right_count => left_count * right_count)
    left right

/-- The DP table of a node, computed bottom-up (children before parents,
as guaranteed by the reverse-BFS-order traversal of the driver). -/
def dpTable (G H : FinGraph) : NTD → List ℕ
  | .leaf => [1]
  | .intro x c => introTable G H c.bagL x (dpTable G H c)
  | .forget x c => forgetTable H c.bagL x (dpTable G H c)
  | .join l r => joinTable (dpTable G H l) (dpTable G H r)

/-- The value returned by the driver: `DP_table[0][0]`, the unique cell of
the root's table. -/
def dpCount (G H : FinGraph) (T : NTD) : ℕ :=
  (dpTable G H T).getD 0 0

/-! ## List access lemmas -/

theorem getD_set_eq (l : List ℕ) (i j v : ℕ) :
    (l.set i v).getD j 0 = if i = j ∧ j < l.length then v else l.getD j 0 := by
  rw [List.getD_eq_getElem?_getD, List.getD_eq_getElem?_getD, List.getElem?_set]
  by_cases h1 : i = j
  · subst h1
    by_cases h2 : i < l.length
    · simp [h2]
    · simp [h2, List.getElem?_eq_none (by omega : l.length ≤ i)]
  · simp [h1]

theorem getD_replicate_zero (n j : ℕ) :
    (List.replicate n (0 : ℕ)).getD j 0 = 0 := by
  rw [List.getD_eq_getElem?_getD, List.getElem?_replicate]
  split <;> rfl

theorem getD_map_range (f : ℕ → ℕ) (N j : ℕ) (hj : j < N) :
    ((List.range N).map f).getD j 0 = f j := by
  rw [List.getD_eq_getElem?_getD, List.getElem?_map, List.getElem?_range hj]
  rfl

theorem getD_zipWith_mul (l r : List ℕ) (p : ℕ)
    (hl : p < l.length) (hr : p < r.length) :
    (List.zipWith (fun a b => a * b) l r).getD p 0 =
      l.getD p 0 * r.getD p 0 := by
  rw [List.getD_eq_getElem?_getD, List.getD_eq_getElem?_getD,
    List.getD_eq_getElem?_getD, List.getElem?_zipWith,
    List.getElem?_eq_getElem hl, List.getElem?_eq_getElem hr]
  rfl

/-! ## Bag tuple lemmas -/

theorem length_insertSorted (x : ℕ) (l : List ℕ) :
    (insertSorted x l).length = l.length + 1 := by
  induction l with
  | nil => rfl
  | cons a l ih =>
    unfold insertSorted
    split
    · rfl
    · simp [ih]

theorem mem_insertSorted_self (x : ℕ) (l : List ℕ) : x ∈ insertSorted x l := by
  induction l with
  | nil => simp [insertSorted]
  | cons a l ih =>
    unfold insertSorted
    split
    · simp
    · simp [ih]

theorem mem_insertSorted_iff (y x : ℕ) (l : List ℕ) :
    y ∈ insertSorted x l ↔ y = x ∨ y ∈ l := by
  induction l with
  | nil => simp [insertSorted]
  | cons a l ih =>
    unfold insertSorted
    split
    · simp only [List.mem_cons]
    · simp only [List.mem_cons, ih]
      tauto

theorem bagIndex_lt_of_mem (x : ℕ) (l : List ℕ) (h : x ∈ l) :
    bagIndex x l < l.length := by
  induction l with
  | nil => cases h
  | cons a l ih =>
    by_cases hax : a = x
    · simp [bagIndex, hax]
    · have hx : x ∈ l := by
        rcases List.mem_cons.1 h with h1 | h1
        · exact absurd h1.symm hax
        · exact h1
      have := ih hx
      simp only [bagIndex, hax, if_false, List.length_cons]
      omega

/-! ## Characterisation of the intro-node write loops -/

theorem introInner_length (H : FinGraph) (nbrs : List ℕ) (base K val k : ℕ)
    (acc : List ℕ) : (introInner H nbrs base K val k acc).length = acc.length := by
  unfold introInner
  induction k with
  | zero => rfl
  | succ k ih =>
    rw [List.range_succ, List.foldl_append]
    simp only [List.foldl_cons, List.foldl_nil]
    split
    · rw [List.length_set, ih]
    · exact ih

theorem introInner_getD (H : FinGraph) (nbrs : List ℕ) (base K val k : ℕ)
    (acc : List ℕ) (q : ℕ) :
    (introInner H nbrs base K val k acc).getD q 0 =
      if (∃ t, t < k ∧ is_valid_mapping t nbrs H = true ∧ q = base + t * K)
          ∧ q < acc.length then val
      else acc.getD q 0 := by
  induction k with
  | zero =>
    simp only [introInner, List.range_zero, List.foldl_nil]
    have : ¬ ((∃ t, t < 0 ∧ is_valid_mapping t nbrs H = true ∧ q = base + t * K)
        ∧ q < acc.length) := by
      rintro ⟨⟨t, ht, _⟩, _⟩; omega
    rw [if_neg this]
  | succ k ih =>
    have hstep : introInner H nbrs base K val (k + 1) acc =
        (fun acc2 => if is_valid_mapping k nbrs H then
            acc2.set (base + k * K) val else acc2)
          (introInner H nbrs base K val k acc) := by
      unfold introInner
      rw [List.range_succ, List.foldl_append]
      rfl
    rw [hstep]
    have hlenR : (introInner H nbrs base K val k acc).length = acc.length :=
      introInner_length H nbrs base K val k acc
    by_cases hC : is_valid_mapping k nbrs H = true
    · simp only [hC, if_true]
      rw [getD_set_eq, hlenR, ih]
      by_cases hq : q = base + k * K
      · subst hq
        by_cases hlt : base + k * K < acc.length
        · rw [if_pos ⟨rfl, hlt⟩, if_pos ⟨⟨k, by omega, hC, rfl⟩, hlt⟩]
        · rw [if_neg (by tauto), if_neg (by tauto), if_neg (by tauto)]
      · rw [if_neg (by tauto)]
        refine if_congr ?_ rfl rfl
        · constructor
          · rintro ⟨⟨t, ht, hv, hqe⟩, hlt⟩
            refine ⟨⟨t, by omega, hv, hqe⟩, hlt⟩
          · rintro ⟨⟨t, ht, hv, hqe⟩, hlt⟩
            have htk : t ≠ k := by
              rintro rfl; exact hq hqe
            exact ⟨⟨t, by omega, hv, hqe⟩, hlt⟩
    · simp only [hC]
      rw [if_neg (by simp [hC]), ih]
      refine if_congr ?_ rfl rfl
      constructor
      · rintro ⟨⟨t, ht, hv, hqe⟩, hlt⟩
        exact ⟨⟨t, by omega, hv, hqe⟩, hlt⟩
      · rintro ⟨⟨t, ht, hv, hqe⟩, hlt⟩
        have htk : t ≠ k := by
          rintro rfl; rw [hv] at hC; exact hC rfl
        exact ⟨⟨t, by omega, hv, hqe⟩, hlt⟩

/-- The running write index of the source loops: starting at
`add_vertex_into_mapping(0, m, i, k)` and advancing `t` times by `k ^ i`
lands exactly at `add_vertex_into_mapping(t, m, i, k)`. -/
theorem add_vertex_shift (t m i k : ℕ) :
    add_vertex_into_mapping 0 m i k + t * k ^ i =
      add_vertex_into_mapping t m i k := by
  unfold add_vertex_into_mapping
  ring

theorem introLoop_length (G H : FinGraph) (childBag : List ℕ) (x : ℕ)
    (child : List ℕ) (M : ℕ) (acc : List ℕ) :
    (introLoop G H childBag x child M acc).length = acc.length := by
  induction M with
  | zero => rfl
  | succ M ih =>
    have hstep : introLoop G H childBag x child (M + 1) acc =
        introInner H
          ((introNbhs G childBag x).map (fun j => extract_bag_vertex M j H.n))
          (add_vertex_into_mapping 0 M (bagIndex x (insertSorted x childBag)) H.n)
          (H.n ^ bagIndex x (insertSorted x childBag))
          (child.getD M 0) H.n (introLoop G H childBag x child M acc) := by
      unfold introLoop
      rw [List.range_succ, List.foldl_append]
      rfl
    rw [hstep, introInner_length, ih]

/-- Pointwise characterisation of the intro-node outer loop: a cell `q`
holds the child count of the decoded child assignment `remove(q, i)` iff
that assignment has already been processed and the decoded candidate
`extract(q, i)` passes the edge checks; otherwise the cell is
untouched. -/
theorem introLoop_getD (G H : FinGraph) (childBag : List ℕ) (x : ℕ)
    (child : List ℕ) (M : ℕ) (acc : List ℕ) (q : ℕ)
    (hk : 0 < H.n) (hq : q < acc.length) :
    (introLoop G H childBag x child M acc).getD q 0 =
      if remove_vertex_from_mapping q (bagIndex x (insertSorted x childBag)) H.n < M
          ∧ is_valid_mapping (extract_bag_vertex q (bagIndex x (insertSorted x childBag)) H.n)
              ((introNbhs G childBag x).map (fun j =>
                extract_bag_vertex
                  (remove_vertex_from_mapping q (bagIndex x (insertSorted x childBag)) H.n)
                  j H.n)) H = true
      then child.getD
        (remove_vertex_from_mapping q (bagIndex x (insertSorted x childBag)) H.n) 0
      else acc.getD q 0 := by
  set i := bagIndex x (insertSorted x childBag) with hi
  induction M with
  | zero =>
    simp only [introLoop, List.range_zero, List.foldl_nil]
    rw [if_neg (by omega)]
  | succ M ih =>
    have hstep : introLoop G H childBag x child (M + 1) acc =
        introInner H
          ((introNbhs G childBag x).map (fun j => extract_bag_vertex M j H.n))
          (add_vertex_into_mapping 0 M i H.n)
          (H.n ^ i)
          (child.getD M 0) H.n (introLoop G H childBag x child M acc) := by
      unfold introLoop
      rw [List.range_succ, List.foldl_append]
      rfl
    rw [hstep, introInner_getD, introLoop_length]
    by_cases hrem : remove_vertex_from_mapping q i H.n = M
    · have hqe : q = add_vertex_into_mapping (extract_bag_vertex q i H.n) M i H.n := by
        rw [← hrem]
        exact (add_vertex_remove_extract q i H.n hk).symm
      by_cases hval : is_valid_mapping (extract_bag_vertex q i H.n)
          ((introNbhs G childBag x).map (fun j => extract_bag_vertex M j H.n)) H = true
      · have hc1 : (∃ t, t < H.n ∧ is_valid_mapping t
              ((introNbhs G childBag x).map (fun j => extract_bag_vertex M j H.n)) H = true
              ∧ q = add_vertex_into_mapping 0 M i H.n + t * H.n ^ i)
            ∧ q < acc.length := by
          refine ⟨⟨extract_bag_vertex q i H.n, Nat.mod_lt _ hk, hval, ?_⟩, hq⟩
          rw [add_vertex_shift]
          exact hqe
        have hc2 : remove_vertex_from_mapping q i H.n < M + 1
            ∧ is_valid_mapping (extract_bag_vertex q i H.n)
                ((introNbhs G childBag x).map (fun j =>
                  extract_bag_vertex (remove_vertex_from_mapping q i H.n) j H.n))
                H = true := by
          refine ⟨by omega, ?_⟩
          rw [hrem]
          exact hval
        rw [if_pos hc1, if_pos hc2, hrem]
      · rw [if_neg, ih, if_neg, if_neg]
        · rw [hrem]; tauto
        · omega
        · rintro ⟨⟨t, htk, hv, hqt⟩, _⟩
          rw [add_vertex_shift] at hqt
          have het : extract_bag_vertex q i H.n = t := by
            rw [hqt, extract_add_vertex t M i H.n htk]
          rw [het] at hval
          exact hval hv
    · rw [if_neg, ih]
      · refine if_congr ?_ rfl rfl
        constructor
        · rintro ⟨h1, h2⟩; exact ⟨by omega, h2⟩
        · rintro ⟨h1, h2⟩; exact ⟨by omega, h2⟩
      · rintro ⟨⟨t, htk, hv, hqt⟩, _⟩
        rw [add_vertex_shift] at hqt
        apply hrem
        rw [hqt, remove_add_vertex t M i H.n htk]

/-- The intro-node table characterised at a write index
`insert(m, i, t)`: the cell holds the child's count iff the candidate
target `t` is adjacent in `H` to all images of the introduced vertex's
neighbours already present in the child's bag, and `0` otherwise. -/
theorem introTable_getD (G H : FinGraph) (childBag : List ℕ) (x : ℕ)
    (child : List ℕ) (m t : ℕ)
    (hlen : child.length = H.n ^ childBag.length)
    (hm : m < child.length) (ht : t < H.n) :
    (introTable G H childBag x child).getD
        (add_vertex_into_mapping t m (bagIndex x (insertSorted x childBag)) H.n) 0 =
      if is_valid_mapping t
          ((introNbhs G childBag x).map (fun j => extract_bag_vertex m j H.n)) H
      then child.getD m 0 else 0 := by
  have hk : 0 < H.n := by omega
  set i := bagIndex x (insertSorted x childBag) with hi
  have hilt : i < (insertSorted x childBag).length :=
    bagIndex_lt_of_mem x (insertSorted x childBag) (mem_insertSorted_self x childBag)
  have hile : i ≤ childBag.length := by
    have := length_insertSorted x childBag
    omega
  have hqlt : add_vertex_into_mapping t m i H.n < H.n ^ (childBag.length + 1) := by
    apply add_vertex_lt t m i H.n childBag.length _ ht hile
    rw [← hlen]
    exact hm
  have hreplen : (List.replicate (H.n ^ (insertSorted x childBag).length) (0 : ℕ)).length
      = H.n ^ (childBag.length + 1) := by
    rw [List.length_replicate, length_insertSorted]
  unfold introTable
  rw [introLoop_getD G H childBag x child child.length _ _ hk (by rw [hreplen]; exact hqlt)]
  rw [← hi, remove_add_vertex t m i H.n ht, extract_add_vertex t m i H.n ht]
  by_cases hval : is_valid_mapping t
      ((introNbhs G childBag x).map (fun j => extract_bag_vertex m j H.n)) H = true
  · rw [if_pos ⟨hm, hval⟩, if_pos hval]
  · rw [if_neg (by tauto), if_neg (by tauto), getD_replicate_zero]

/-- The forget-node table characterised pointwise: each in-range cell is
the sum over all candidate images `t` of the forgotten vertex of the
child's cell at the extended assignment `insert(p, j, t)`. -/
theorem forgetTable_getD (H : FinGraph) (childBag : List ℕ) (x : ℕ)
    (child : List ℕ) (p : ℕ)
    (hp : p < H.n ^ (childBag.erase x).length) :
    (forgetTable H childBag x child).getD p 0 =
      ((List.range H.n).map (fun t =>
        child.getD (add_vertex_into_mapping t p (bagIndex x childBag) H.n) 0)).sum := by
  unfold forgetTable
  rw [getD_map_range _ _ _ hp]
  congr 1
  apply List.map_congr_left
  intro t _
  rw [add_vertex_shift]

theorem forgetTable_length (H : FinGraph) (childBag : List ℕ) (x : ℕ)
    (child : List ℕ) :
    (forgetTable H childBag x child).length = H.n ^ (childBag.erase x).length := by
  unfold forgetTable
  rw [List.length_map, List.length_range]

theorem introTable_length (G H : FinGraph) (childBag : List ℕ) (x : ℕ)
    (child : List ℕ) :
    (introTable G H childBag x child).length
      = H.n ^ (insertSorted x childBag).length := by
  unfold introTable
  rw [introLoop_length, List.length_replicate]

/-- The join-node table characterised pointwise: the product of the two
children's cells. -/
theorem joinTable_getD (left right : List ℕ) (p : ℕ)
    (hl : p < left.length) (hr : p < right.length) :
    (joinTable left right).getD p 0 = left.getD p 0 * right.getD p 0 := by
  unfold joinTable
  exact getD_zipWith_mul left right p hl hr

theorem joinTable_length (left right : List ℕ) :
    (joinTable left right).length = min left.length right.length := by
  unfold joinTable
  exact List.length_zipWith _ _ _

/-! ## Sorted bags -/

theorem insertSorted_sorted (x : ℕ) (l : List ℕ)
    (hl : l.Sorted (· < ·)) (hx : x ∉ l) :
    (insertSorted x l).Sorted (· < ·) := by
  induction l with
  | nil => simp [insertSorted]
  | cons a l ih =>
    have hxa : x ≠ a := by
      intro h; exact hx (h ▸ List.mem_cons_self a l)
    have hxl : x ∉ l := fun h => hx (List.mem_cons_of_mem a h)
    have hal : ∀ b ∈ l, a < b := fun b hb => List.rel_of_sorted_cons hl b hb
    unfold insertSorted
    split
    · rename_i hle
      have hxa2 : x < a := by omega
      refine List.sorted_cons.2 ⟨?_, hl⟩
      intro b hb
      rcases List.mem_cons.1 hb with h1 | h1
      · omega
      · have := hal b h1; omega
    · rename_i hle
      have hax : a < x := by omega
      refine List.sorted_cons.2 ⟨?_, ih (List.sorted_cons.1 hl).2 hxl⟩
      intro b hb
      rcases (mem_insertSorted_iff b x l).1 hb with h1 | h1
      · omega
      · exact hal b h1

theorem erase_sorted (x : ℕ) (l : List ℕ) (hl : l.Sorted (· < ·)) :
    (l.erase x).Sorted (· < ·) :=
  List.Pairwise.sublist (l.erase_sublist x) hl

theorem insertSorted_of_forall_lt (x : ℕ) (l : List ℕ)
    (h : ∀ b ∈ l, x < b) : insertSorted x l = x :: l := by
  cases l with
  | nil => rfl
  | cons b l =>
    have := h b (List.mem_cons_self b l)
    unfold insertSorted
    rw [if_pos (by omega)]

/-- Erasing a vertex from a sorted bag and re-inserting it restores the
bag: the child bag of a forget node is the sorted insertion of the
forgotten vertex into the node's bag. -/
theorem insertSorted_erase (x : ℕ) (l : List ℕ) (hl : l.Sorted (· < ·))
    (hx : x ∈ l) : insertSorted x (l.erase x) = l := by
  induction l with
  | nil => cases hx
  | cons a l ih =>
    by_cases hax : a = x
    · subst hax
      rw [List.erase_cons_head]
      exact insertSorted_of_forall_lt a l
        (fun b hb => List.rel_of_sorted_cons hl b hb)
    · have hxl : x ∈ l := by
        rcases List.mem_cons.1 hx with h1 | h1
        · exact absurd h1.symm hax
        · exact h1
      have hax2 : a < x := List.rel_of_sorted_cons hl x hxl
      rw [List.erase_cons_tail (by simp [hax])]
      unfold insertSorted
      rw [if_neg (by omega), ih (List.sorted_cons.1 hl).2 hxl]

/-! ## Encoding a bag assignment (`p = Σ d_i k^i`, little-endian) -/

/-- The positional base-`k` encoding of the assignment sending the bag
tuple's `i`-th vertex `v_i` to `f v_i`. -/
def encodeBag (k : ℕ) : List ℕ → (ℕ → ℕ) → ℕ
  | [], _ => 0
  | v :: rest, f => f v + k * encodeBag k rest f

theorem encodeBag_lt (k : ℕ) (l : List ℕ) (f : ℕ → ℕ)
    (hf : ∀ v ∈ l, f v < k) : encodeBag k l f < k ^ l.length := by
  induction l with
  | nil => simp [encodeBag]
  | cons v rest ih =>
    have h1 : f v < k := hf v (List.mem_cons_self v rest)
    have h2 : encodeBag k rest f < k ^ rest.length :=
      ih (fun w hw => hf w (List.mem_cons_of_mem v hw))
    show f v + k * encodeBag k rest f < k ^ (rest.length + 1)
    have h3 : k * (encodeBag k rest f + 1) ≤ k * k ^ rest.length :=
      Nat.mul_le_mul_left k (by omega)
    have h4 : k ^ (rest.length + 1) = k ^ rest.length * k := pow_succ k rest.length
    have h5 : k * k ^ rest.length = k ^ rest.length * k := Nat.mul_comm _ _
    have h6 : k * (encodeBag k rest f + 1) = k * encodeBag k rest f + k := by ring
    omega

theorem extract_encodeBag (k : ℕ) (l : List ℕ) (f : ℕ → ℕ)
    (hf : ∀ v ∈ l, f v < k) (j : ℕ) (hj : j < l.length) :
    extract_bag_vertex (encodeBag k l f) j k = f (l.getD j 0) := by
  induction l generalizing j with
  | nil => cases hj
  | cons v rest ih =>
    have hk : 0 < k := Nat.lt_of_le_of_lt (Nat.zero_le _)
      (hf v (List.mem_cons_self v rest))
    cases j with
    | zero =>
      show (f v + k * encodeBag k rest f) / k ^ 0 % k = f v
      rw [pow_zero, Nat.div_one, Nat.mul_comm k, Nat.add_mul_mod_self_right,
        Nat.mod_eq_of_lt (hf v (List.mem_cons_self v rest))]
    | succ j =>
      have hj2 : j < rest.length := by
        simp only [List.length_cons] at hj; omega
      show (f v + k * encodeBag k rest f) / k ^ (j + 1) % k = f ((v :: rest).getD (j + 1) 0)
      have hdd : (f v + k * encodeBag k rest f) / k ^ (j + 1)
          = (f v + k * encodeBag k rest f) / k / k ^ j := by
        rw [Nat.div_div_eq_div_mul]
        congr 1
        rw [pow_succ]
        ring
      have hdk : (f v + k * encodeBag k rest f) / k = encodeBag k rest f := by
        rw [Nat.add_mul_div_left _ _ hk,
          Nat.div_eq_of_lt (hf v (List.mem_cons_self v rest)), Nat.zero_add]
      rw [hdd, hdk]
      have := ih (fun w hw => hf w (List.mem_cons_of_mem v hw)) j hj2
      exact this

/-- Encoding over a sorted insertion: inserting vertex `x` with image
`f x` corresponds to `add_vertex_into_mapping` at the vertex's position
in the enlarged bag. -/
theorem encodeBag_insertSorted (k x : ℕ) (l : List ℕ) (f : ℕ → ℕ)
    (hf : ∀ v ∈ l, f v < k) :
    encodeBag k (insertSorted x l) f =
      add_vertex_into_mapping (f x) (encodeBag k l f)
        (bagIndex x (insertSorted x l)) k := by
  induction l with
  | nil =>
    show f x + k * 0 = add_vertex_into_mapping (f x) 0 (bagIndex x [x]) k
    have hbi : bagIndex x [x] = 0 := by simp [bagIndex]
    rw [hbi, add_vertex_zero]
    omega
  | cons a l ih =>
    unfold insertSorted
    by_cases hxa : x ≤ a
    · rw [if_pos hxa]
      have hbi : bagIndex x (x :: a :: l) = 0 := by simp [bagIndex]
      rw [hbi, add_vertex_zero]
      show f x + k * encodeBag k (a :: l) f = k * encodeBag k (a :: l) f + f x
      omega
    · rw [if_neg hxa]
      have hax : a ≠ x := by omega
      have hbi : bagIndex x (a :: insertSorted x l) =
          bagIndex x (insertSorted x l) + 1 := by
        simp [bagIndex, hax]
      rw [hbi]
      have hfl : ∀ v ∈ l, f v < k := fun v hv => hf v (List.mem_cons_of_mem a hv)
      show f a + k * encodeBag k (insertSorted x l) f = _
      rw [ih hfl]
      have hstep := add_vertex_succ (f x) (f a) (encodeBag k l f)
        (bagIndex x (insertSorted x l)) k (hf a (List.mem_cons_self a l))
      rw [← hstep]
      rfl

/-! ## Table lengths -/

theorem dpTable_length (G H : FinGraph) (T : NTD) (hT : T.validB G = true) :
    (dpTable G H T).length = H.n ^ T.bagL.length := by
  induction T with
  | leaf => rfl
  | intro x c ih =>
    show (introTable G H c.bagL x (dpTable G H c)).length = _
    rw [introTable_length]
    rfl
  | forget x c ih =>
    show (forgetTable H c.bagL x (dpTable G H c)).length = _
    rw [forgetTable_length]
    rfl
  | join l r ihl ihr =>
    have hv : l.validB G = true ∧ r.validB G = true ∧ l.bagL = r.bagL := by
      have := hT
      simp only [NTD.validB, Bool.and_eq_true, decide_eq_true_eq] at this
      tauto
    show (joinTable (dpTable G H l) (dpTable G H r)).length = H.n ^ l.bagL.length
    rw [joinTable_length, ihl hv.1, ihr hv.2.1, hv.2.2, Nat.min_self]

/-! ## Structural facts about valid nice tree decompositions -/

theorem validB_intro_iff (G : FinGraph) (x : ℕ) (c : NTD) :
    (NTD.intro x c).validB G = true ↔
      c.validB G = true ∧ x < G.n ∧ x ∉ c.vertsL := by
  simp only [NTD.validB, Bool.and_eq_true, Bool.not_eq_true',
    decide_eq_true_eq, decide_eq_false_iff_not]
  tauto

theorem validB_forget_iff (G : FinGraph) (x : ℕ) (c : NTD) :
    (NTD.forget x c).validB G = true ↔ c.validB G = true ∧ x ∈ c.bagL := by
  simp only [NTD.validB, Bool.and_eq_true, decide_eq_true_eq]

theorem validB_join_iff (G : FinGraph) (l r : NTD) :
    (NTD.join l r).validB G = true ↔
      l.validB G = true ∧ r.validB G = true ∧ l.bagL = r.bagL ∧
        ∀ v ∈ l.vertsL, v ∈ r.vertsL → v ∈ l.bagL := by
  simp only [NTD.validB, Bool.and_eq_true, decide_eq_true_eq]
  tauto

theorem bag_subset_verts (T : NTD) : ∀ v ∈ T.bagL, v ∈ T.vertsL := by
  induction T with
  | leaf => intro v hv; cases hv
  | intro x c ih =>
    intro v hv
    rcases (mem_insertSorted_iff v x c.bagL).1 hv with h | h
    · subst h; exact List.mem_cons_self _ _
    · exact List.mem_cons_of_mem _ (ih v h)
  | forget x c ih =>
    intro v hv
    exact ih v (List.erase_subset _ _ hv)
  | join l r ihl ihr =>
    intro v hv
    exact List.mem_append.2 (Or.inl (ihl v hv))

theorem verts_lt_n (G : FinGraph) (T : NTD) (hT : T.validB G = true) :
    ∀ v ∈ T.vertsL, v < G.n := by
  induction T with
  | leaf => intro v hv; cases hv
  | intro x c ih =>
    obtain ⟨hc, hx, _⟩ := (validB_intro_iff G x c).1 hT
    intro v hv
    rcases List.mem_cons.1 hv with h | h
    · omega
    · exact ih hc v h
  | forget x c ih =>
    obtain ⟨hc, _⟩ := (validB_forget_iff G x c).1 hT
    exact ih hc
  | join l r ihl ihr =>
    obtain ⟨hl, hr, _, _⟩ := (validB_join_iff G l r).1 hT
    intro v hv
    rcases List.mem_append.1 hv with h | h
    · exact ihl hl v h
    · exact ihr hr v h

theorem bag_sorted (G : FinGraph) (T : NTD) (hT : T.validB G = true) :
    T.bagL.Sorted (· < ·) := by
  induction T with
  | leaf => exact List.sorted_nil
  | intro x c ih =>
    obtain ⟨hc, _, hxv⟩ := (validB_intro_iff G x c).1 hT
    exact insertSorted_sorted x c.bagL (ih hc)
      (fun h => hxv (bag_subset_verts c x h))
  | forget x c ih =>
    obtain ⟨hc, _⟩ := (validB_forget_iff G x c).1 hT
    exact erase_sorted x c.bagL (ih hc)
  | join l r ihl ihr =>
    obtain ⟨hl, _, _, _⟩ := (validB_join_iff G l r).1 hT
    exact ihl hl

theorem covered_adj (G : FinGraph) (T : NTD) (u v : ℕ)
    (h : T.covered G u v = true) : G.adj u v = true := by
  induction T with
  | leaf => cases h
  | intro x c ih =>
    rcases Bool.or_eq_true_iff.1 h with h1 | h1
    · simp only [Bool.and_eq_true] at h1; exact h1.2
    · exact ih h1
  | forget x c ih =>
    rcases Bool.or_eq_true_iff.1 h with h1 | h1
    · simp only [Bool.and_eq_true] at h1; exact h1.2
    · exact ih h1
  | join l r ihl ihr =>
    rcases Bool.or_eq_true_iff.1 h with h1 | h1
    · rcases Bool.or_eq_true_iff.1 h1 with h2 | h2
      · simp only [Bool.and_eq_true] at h2; exact h2.2
      · exact ihl h2
    · exact ihr h1

theorem covered_mem_verts (G : FinGraph) (T : NTD) (u v : ℕ)
    (h : T.covered G u v = true) : u ∈ T.vertsL ∧ v ∈ T.vertsL := by
  induction T with
  | leaf => cases h
  | intro x c ih =>
    rcases Bool.or_eq_true_iff.1 h with h1 | h1
    · simp only [Bool.and_eq_true, decide_eq_true_eq] at h1
      exact ⟨bag_subset_verts (NTD.intro x c) u h1.1.1,
        bag_subset_verts (NTD.intro x c) v h1.1.2⟩
    · obtain ⟨h2, h3⟩ := ih h1
      exact ⟨List.mem_cons_of_mem _ h2, List.mem_cons_of_mem _ h3⟩
  | forget x c ih =>
    rcases Bool.or_eq_true_iff.1 h with h1 | h1
    · simp only [Bool.and_eq_true, decide_eq_true_eq] at h1
      exact ⟨bag_subset_verts (NTD.forget x c) u h1.1.1,
        bag_subset_verts (NTD.forget x c) v h1.1.2⟩
    · exact ih h1
  | join l r ihl ihr =>
    rcases Bool.or_eq_true_iff.1 h with h1 | h1
    · rcases Bool.or_eq_true_iff.1 h1 with h2 | h2
      · simp only [Bool.and_eq_true, decide_eq_true_eq] at h2
        exact ⟨List.mem_append.2 (Or.inl (bag_subset_verts l u h2.1.1)),
          List.mem_append.2 (Or.inl (bag_subset_verts l v h2.1.2))⟩
      · obtain ⟨h3, h4⟩ := ihl h2
        exact ⟨List.mem_append.2 (Or.inl h3), List.mem_append.2 (Or.inl h4)⟩
    · obtain ⟨h3, h4⟩ := ihr h1
      exact ⟨List.mem_append.2 (Or.inr h3), List.mem_append.2 (Or.inr h4)⟩

theorem bag_pair_covered (G : FinGraph) (T : NTD) (u v : ℕ)
    (hu : u ∈ T.bagL) (hv : v ∈ T.bagL) (ha : G.adj u v = true) :
    T.covered G u v = true := by
  cases T with
  | leaf => cases hu
  | intro x c =>
    simp only [NTD.bagL] at hu hv
    simp only [NTD.covered, Bool.or_eq_true, Bool.and_eq_true, decide_eq_true_eq]
    exact Or.inl ⟨⟨hu, hv⟩, ha⟩
  | forget x c =>
    simp only [NTD.bagL] at hu hv
    simp only [NTD.covered, Bool.or_eq_true, Bool.and_eq_true, decide_eq_true_eq]
    exact Or.inl ⟨⟨hu, hv⟩, ha⟩
  | join l r =>
    simp only [NTD.bagL] at hu hv
    simp only [NTD.covered, Bool.or_eq_true, Bool.and_eq_true, decide_eq_true_eq]
    exact Or.inl (Or.inl ⟨⟨hu, hv⟩, ha⟩)

theorem covered_forget_eq (G : FinGraph) (x : ℕ) (c : NTD) (u v : ℕ) :
    (NTD.forget x c).covered G u v = c.covered G u v := by
  cases hcc : c.covered G u v
  · simp only [NTD.covered, hcc, Bool.or_false]
    rw [← Bool.not_eq_true]
    intro h
    simp only [Bool.and_eq_true, decide_eq_true_eq] at h
    obtain ⟨⟨hu, hv⟩, ha⟩ := h
    rw [bag_pair_covered G c u v (List.erase_subset _ _ hu)
      (List.erase_subset _ _ hv) ha] at hcc
    cases hcc
  · simp [NTD.covered, hcc]

theorem covered_intro_iff (G : FinGraph) (x : ℕ) (c : NTD) (u v : ℕ) :
    (NTD.intro x c).covered G u v = true ↔
      (u ∈ insertSorted x c.bagL ∧ v ∈ insertSorted x c.bagL ∧ G.adj u v = true)
        ∨ c.covered G u v = true := by
  simp only [NTD.covered, Bool.or_eq_true, Bool.and_eq_true, decide_eq_true_eq]
  tauto

theorem covered_join_iff (G : FinGraph) (l r : NTD) (u v : ℕ) :
    (NTD.join l r).covered G u v = true ↔
      l.covered G u v = true ∨ r.covered G u v = true := by
  simp only [NTD.covered, Bool.or_eq_true, Bool.and_eq_true, decide_eq_true_eq]
  constructor
  · rintro ((⟨⟨hu, hv⟩, ha⟩ | h) | h)
    · exact Or.inl (bag_pair_covered G l u v hu hv ha)
    · exact Or.inl h
    · exact Or.inr h
  · rintro (h | h)
    · exact Or.inl (Or.inr h)
    · exact Or.inr h

/-! ## Small list access facts -/

theorem getD_mem_of_lt (l : List ℕ) (j : ℕ) (h : j < l.length) :
    l.getD j 0 ∈ l := by
  induction l generalizing j with
  | nil => cases h
  | cons a l ih =>
    cases j with
    | zero => exact List.mem_cons_self _ _
    | succ j =>
      have : j < l.length := by simp only [List.length_cons] at h; omega
      exact List.mem_cons_of_mem _ (ih j this)

theorem getD_bagIndex (l : List ℕ) (v : ℕ) (h : v ∈ l) :
    l.getD (bagIndex v l) 0 = v := by
  induction l with
  | nil => cases h
  | cons a l ih =>
    by_cases hav : a = v
    · simp [bagIndex, hav]
    · have hvl : v ∈ l := by
        rcases List.mem_cons.1 h with h1 | h1
        · exact absurd h1.symm hav
        · exact h1
      simp only [bagIndex, hav, if_false]
      exact ih hvl

theorem sum_map_range (g : ℕ → ℕ) (n : ℕ) :
    ((List.range n).map g).sum = ∑ t ∈ Finset.range n, g t := by
  induction n with
  | zero => rfl
  | succ n ih =>
    rw [List.range_succ, List.map_append, List.sum_append,
      Finset.sum_range_succ, ih]
    simp

/-! ## Partial homomorphism extensions

`extCount G H T ψ0` counts the assignments of all vertices seen in the
subtree of `T` that extend the bag assignment `ψ0`, satisfy every edge of
`G` covered in the subtree, and are normalised to `0` outside the
subtree's vertices.  This is the semantic value of a DP table cell. -/

/-- A bag assignment `ψ` of `Fin`-vertices read as a total map `ℕ → ℕ`
(vertices outside the range go to `0`). -/
def finMap (G H : FinGraph) (ψ : Fin G.n → Fin H.n) : ℕ → ℕ :=
  fun v => if h : v < G.n then (ψ ⟨v, h⟩ : ℕ) else 0

theorem finMap_lt (G H : FinGraph) (ψ : Fin G.n → Fin H.n) (v : ℕ)
    (hv : v < G.n) : finMap G H ψ v < H.n := by
  unfold finMap
  rw [dif_pos hv]
  exact (ψ ⟨v, hv⟩).isLt

def extProp (G H : FinGraph) (T : NTD) (ψ0 ψ : Fin G.n → Fin H.n) : Prop :=
  (∀ v : Fin G.n, v.val ∈ T.bagL → ψ v = ψ0 v) ∧
  (∀ u v : Fin G.n, T.covered G u.val v.val = true →
    H.adj (ψ u).val (ψ v).val = true) ∧
  (∀ v : Fin G.n, v.val ∉ T.vertsL → (ψ v).val = 0)

instance extProp_decidable (G H : FinGraph) (T : NTD)
    (ψ0 : Fin G.n → Fin H.n) : DecidablePred (extProp G H T ψ0) := by
  intro ψ
  unfold extProp
  infer_instance

def extCount (G H : FinGraph) (T : NTD) (ψ0 : Fin G.n → Fin H.n) : ℕ :=
  (Finset.univ.filter (extProp G H T ψ0)).card

theorem extCount_leaf (G H : FinGraph) (ψ0 : Fin G.n → Fin H.n) :
    extCount G H NTD.leaf ψ0 = 1 := by
  have hset : Finset.univ.filter (extProp G H NTD.leaf ψ0) =
      {fun v => ⟨0, Nat.lt_of_le_of_lt (Nat.zero_le _) (ψ0 v).isLt⟩} := by
    ext ψ
    simp only [Finset.mem_filter, Finset.mem_univ, true_and,
      Finset.mem_singleton]
    constructor
    · rintro ⟨h1, h2, h3⟩
      funext v
      apply Fin.ext
      exact h3 v (by simp [NTD.vertsL])
    · rintro rfl
      refine ⟨?_, ?_, ?_⟩
      · intro v hv
        simp only [NTD.bagL, List.not_mem_nil] at hv
      · intro u v h
        simp only [NTD.covered] at h
        cases h
      · intro v hv
        rfl
  rw [extCount, hset, Finset.card_singleton]

theorem extCount_forget (G H : FinGraph) (x : ℕ) (c : NTD)
    (hc : c.validB G = true) (hxb : x ∈ c.bagL)
    (ψ0 : Fin G.n → Fin H.n) (hxn : x < G.n) (hk : 0 < H.n) :
    extCount G H (NTD.forget x c) ψ0 =
      ∑ t ∈ Finset.range H.n,
        extCount G H c (Function.update ψ0 ⟨x, hxn⟩
          ⟨t % H.n, Nat.mod_lt _ hk⟩) := by
  have hnodup : c.bagL.Nodup := (bag_sorted G c hc).nodup
  have hfib := @Finset.card_eq_sum_card_fiberwise _ _ _
    (fun ψ : Fin G.n → Fin H.n => (ψ ⟨x, hxn⟩ : ℕ))
    (Finset.univ.filter (extProp G H (NTD.forget x c) ψ0))
    (Finset.range H.n)
    (fun ψ _ => Finset.mem_range.2 (ψ ⟨x, hxn⟩).isLt)
  rw [extCount, hfib]
  apply Finset.sum_congr rfl
  intro t ht
  have htk : t < H.n := Finset.mem_range.1 ht
  rw [Finset.filter_filter, extCount]
  congr 1
  ext ψ
  simp only [Finset.mem_filter, Finset.mem_univ, true_and]
  constructor
  · rintro ⟨⟨h1, h2, h3⟩, hft⟩
    refine ⟨?_, ?_, ?_⟩
    · intro v hv
      by_cases hvx : v.val = x
      · have hvv : v = ⟨x, hxn⟩ := Fin.ext hvx
        subst hvv
        rw [Function.update_same]
        apply Fin.ext
        rw [hft]
        exact (Nat.mod_eq_of_lt htk).symm
      · have hve : v.val ∈ c.bagL.erase x :=
          (List.Nodup.mem_erase_iff hnodup).2 ⟨hvx, hv⟩
        rw [h1 v hve, Function.update_noteq]
        intro hvv
        exact hvx (congrArg Fin.val hvv)
    · intro u v h
      apply h2
      rw [covered_forget_eq]
      exact h
    · intro v hv
      exact h3 v hv
  · rintro ⟨h1, h2, h3⟩
    have hψx : ψ ⟨x, hxn⟩ = ⟨t % H.n, Nat.mod_lt _ hk⟩ := by
      rw [h1 ⟨x, hxn⟩ hxb, Function.update_same]
    refine ⟨⟨?_, ?_, ?_⟩, ?_⟩
    · intro v hv
      have hvx : v.val ≠ x := ((List.Nodup.mem_erase_iff hnodup).1 hv).1
      have hvb : v.val ∈ c.bagL := ((List.Nodup.mem_erase_iff hnodup).1 hv).2
      rw [h1 v hvb, Function.update_noteq]
      intro hvv
      exact hvx (congrArg Fin.val hvv)
    · intro u v h
      apply h2
      rw [covered_forget_eq] at h
      exact h
    · intro v hv
      exact h3 v hv
    · rw [hψx]
      exact Nat.mod_eq_of_lt htk

theorem extCount_intro_valid (G H : FinGraph) (x : ℕ) (c : NTD)
    (hGs : G.SymmOn) (hGl : G.LooplessOn) (hHs : H.SymmOn)
    (hc : c.validB G = true) (hxn : x < G.n) (hxv : x ∉ c.vertsL)
    (ψ0 : Fin G.n → Fin H.n)
    (hval : ∀ w : Fin G.n, w.val ∈ c.bagL → G.adj x w.val = true →
      H.adj (ψ0 ⟨x, hxn⟩).val (ψ0 w).val = true) :
    extCount G H (NTD.intro x c) ψ0 = extCount G H c ψ0 := by
  have hk : 0 < H.n :=
    Nat.lt_of_le_of_lt (Nat.zero_le _) (ψ0 ⟨x, hxn⟩).isLt
  have hxb : x ∉ c.bagL := fun h => hxv (bag_subset_verts c x h)
  rw [extCount, extCount]
  refine Finset.card_bij'
    (fun ψ _ => Function.update ψ ⟨x, hxn⟩ (Fin.mk 0 hk))
    (fun ψ _ => Function.update ψ ⟨x, hxn⟩ (ψ0 ⟨x, hxn⟩)) ?_ ?_ ?_ ?_
  · -- forward membership
    intro ψ ha
    dsimp only
    obtain ⟨h1, h2, h3⟩ := (Finset.mem_filter.1 ha).2
    refine Finset.mem_filter.2 ⟨Finset.mem_univ _, ?_, ?_, ?_⟩
    · intro v hv
      have hvx : v.val ≠ x := fun h => hxb (h ▸ hv)
      rw [Function.update_noteq (fun h => hvx (congrArg Fin.val h))]
      exact h1 v ((mem_insertSorted_iff v.val x c.bagL).2 (Or.inr hv))
    · intro u v h
      have hu := (covered_mem_verts G c u.val v.val h).1
      have hv := (covered_mem_verts G c u.val v.val h).2
      have hux : u.val ≠ x := fun he => hxv (he ▸ hu)
      have hvx : v.val ≠ x := fun he => hxv (he ▸ hv)
      rw [Function.update_noteq (fun he => hux (congrArg Fin.val he)),
        Function.update_noteq (fun he => hvx (congrArg Fin.val he))]
      exact h2 u v ((covered_intro_iff G x c u.val v.val).2 (Or.inr h))
    · intro v hv
      by_cases hvx : v = ⟨x, hxn⟩
      · subst hvx
        rw [Function.update_same]
      · rw [Function.update_noteq hvx]
        apply h3
        intro hmem
        rcases List.mem_cons.1 hmem with h4 | h4
        · exact hvx (Fin.ext h4)
        · exact hv h4
  · -- backward membership
    intro ψ ha
    dsimp only
    obtain ⟨h1, h2, h3⟩ := (Finset.mem_filter.1 ha).2
    refine Finset.mem_filter.2 ⟨Finset.mem_univ _, ?_, ?_, ?_⟩
    · intro v hv
      rcases (mem_insertSorted_iff v.val x c.bagL).1 hv with h4 | h4
      · have hvv : v = ⟨x, hxn⟩ := Fin.ext h4
        subst hvv
        rw [Function.update_same]
      · have hvx : v.val ≠ x := fun h => hxb (h ▸ h4)
        rw [Function.update_noteq (fun h => hvx (congrArg Fin.val h))]
        exact h1 v h4
    · intro u v h
      rcases (covered_intro_iff G x c u.val v.val).1 h with ⟨hu, hv, hadj⟩ | h4
      · rcases (mem_insertSorted_iff u.val x c.bagL).1 hu with hu1 | hu1
        · rcases (mem_insertSorted_iff v.val x c.bagL).1 hv with hv1 | hv1
          · exfalso
            have huu : u = ⟨x, hxn⟩ := Fin.ext hu1
            have hvv : v = ⟨x, hxn⟩ := Fin.ext hv1
            subst huu
            subst hvv
            rw [hu1] at hadj
            rw [hGl x hxn] at hadj
            cases hadj
          · have huu : u = ⟨x, hxn⟩ := Fin.ext hu1
            subst huu
            have hvx : v.val ≠ x := fun h => hxb (h ▸ hv1)
            rw [Function.update_same,
              Function.update_noteq (fun h => hvx (congrArg Fin.val h)),
              h1 v hv1]
            exact hval v hv1 hadj
        · rcases (mem_insertSorted_iff v.val x c.bagL).1 hv with hv1 | hv1
          · have hvv : v = ⟨x, hxn⟩ := Fin.ext hv1
            subst hvv
            have hux : u.val ≠ x := fun h => hxb (h ▸ hu1)
            rw [Function.update_same,
              Function.update_noteq (fun h => hux (congrArg Fin.val h)),
              h1 u hu1]
            have hadj2 : G.adj x u.val = true := by
              rw [hGs x hxn u.val u.isLt]
              exact hadj
            have hres := hval u hu1 hadj2
            rw [hHs _ (ψ0 ⟨x, hxn⟩).isLt _ (ψ0 u).isLt] at hres
            exact hres
          · have hux : u.val ≠ x := fun h => hxb (h ▸ hu1)
            have hvx : v.val ≠ x := fun h => hxb (h ▸ hv1)
            rw [Function.update_noteq (fun h => hux (congrArg Fin.val h)),
              Function.update_noteq (fun h => hvx (congrArg Fin.val h))]
            exact h2 u v (bag_pair_covered G c u.val v.val hu1 hv1 hadj)
      · have hu := (covered_mem_verts G c u.val v.val h4).1
        have hv := (covered_mem_verts G c u.val v.val h4).2
        have hux : u.val ≠ x := fun he => hxv (he ▸ hu)
        have hvx : v.val ≠ x := fun he => hxv (he ▸ hv)
        rw [Function.update_noteq (fun he => hux (congrArg Fin.val he)),
          Function.update_noteq (fun he => hvx (congrArg Fin.val he))]
        exact h2 u v h4
    · intro v hv
      have hvx : v ≠ ⟨x, hxn⟩ := by
        intro he
        subst he
        exact hv (List.mem_cons_self _ _)
      rw [Function.update_noteq hvx]
      apply h3
      intro hmem
      exact hv (List.mem_cons_of_mem _ hmem)
  · -- left inverse
    intro ψ ha
    dsimp only
    obtain ⟨h1, _, _⟩ := (Finset.mem_filter.1 ha).2
    funext v
    by_cases hvx : v = ⟨x, hxn⟩
    · subst hvx
      rw [Function.update_same]
      exact (h1 ⟨x, hxn⟩ (mem_insertSorted_self x c.bagL)).symm
    · rw [Function.update_noteq hvx, Function.update_noteq hvx]
  · -- right inverse
    intro ψ ha
    dsimp only
    obtain ⟨_, _, h3⟩ := (Finset.mem_filter.1 ha).2
    funext v
    by_cases hvx : v = ⟨x, hxn⟩
    · subst hvx
      rw [Function.update_same]
      apply Fin.ext
      exact (h3 ⟨x, hxn⟩ hxv).symm
    · rw [Function.update_noteq hvx, Function.update_noteq hvx]

theorem extCount_intro_invalid (G H : FinGraph) (x : ℕ) (c : NTD)
    (hxn : x < G.n) (ψ0 : Fin G.n → Fin H.n) (w : Fin G.n)
    (hwb : w.val ∈ c.bagL) (hadj : G.adj x w.val = true)
    (hnadj : H.adj (ψ0 ⟨x, hxn⟩).val (ψ0 w).val = false) :
    extCount G H (NTD.intro x c) ψ0 = 0 := by
  rw [extCount, Finset.card_eq_zero, Finset.eq_empty_iff_forall_not_mem]
  intro ψ hψ
  obtain ⟨h1, h2, _⟩ := (Finset.mem_filter.1 hψ).2
  have hcov : (NTD.intro x c).covered G x w.val = true := by
    apply (covered_intro_iff G x c x w.val).2
    exact Or.inl ⟨mem_insertSorted_self x c.bagL,
      (mem_insertSorted_iff w.val x c.bagL).2 (Or.inr hwb), hadj⟩
  have hres := h2 ⟨x, hxn⟩ w hcov
  rw [h1 ⟨x, hxn⟩ (mem_insertSorted_self x c.bagL),
    h1 w ((mem_insertSorted_iff w.val x c.bagL).2 (Or.inr hwb))] at hres
  rw [hnadj] at hres
  cases hres

/-- Restriction of an assignment to the vertices of one join subtree:
outside those vertices the assignment is normalised to `0`. -/
def maskVerts (G H : FinGraph) (ψ0 : Fin G.n → Fin H.n) (S : List ℕ)
    (ψ : Fin G.n → Fin H.n) : Fin G.n → Fin H.n :=
  fun v => if v.val ∈ S then ψ v
    else ⟨0, Nat.lt_of_le_of_lt (Nat.zero_le _) (ψ0 v).isLt⟩

/-- Combination of the two subtree assignments of a join node. -/
def mergeVerts (G H : FinGraph) (S : List ℕ)
    (ψl ψr : Fin G.n → Fin H.n) : Fin G.n → Fin H.n :=
  fun v => if v.val ∈ S then ψl v else ψr v

theorem maskVerts_mem (G H : FinGraph) (ψ0 : Fin G.n → Fin H.n) (S : List ℕ)
    (ψ : Fin G.n → Fin H.n) (v : Fin G.n) (h : v.val ∈ S) :
    maskVerts G H ψ0 S ψ v = ψ v := by
  unfold maskVerts
  rw [if_pos h]

theorem maskVerts_not_mem (G H : FinGraph) (ψ0 : Fin G.n → Fin H.n)
    (S : List ℕ) (ψ : Fin G.n → Fin H.n) (v : Fin G.n) (h : v.val ∉ S) :
    (maskVerts G H ψ0 S ψ v).val = 0 := by
  unfold maskVerts
  rw [if_neg h]

theorem mergeVerts_mem (G H : FinGraph) (S : List ℕ)
    (ψl ψr : Fin G.n → Fin H.n) (v : Fin G.n) (h : v.val ∈ S) :
    mergeVerts G H S ψl ψr v = ψl v := by
  unfold mergeVerts
  rw [if_pos h]

theorem mergeVerts_not_mem (G H : FinGraph) (S : List ℕ)
    (ψl ψr : Fin G.n → Fin H.n) (v : Fin G.n) (h : v.val ∉ S) :
    mergeVerts G H S ψl ψr v = ψr v := by
  unfold mergeVerts
  rw [if_neg h]

theorem extCount_join (G H : FinGraph) (l r : NTD)
    (hbag : l.bagL = r.bagL)
    (hover : ∀ v ∈ l.vertsL, v ∈ r.vertsL → v ∈ l.bagL)
    (ψ0 : Fin G.n → Fin H.n) :
    extCount G H (NTD.join l r) ψ0 =
      extCount G H l ψ0 * extCount G H r ψ0 := by
  rw [extCount, extCount, extCount, ← Finset.card_product]
  refine Finset.card_bij'
    (fun ψ _ => (maskVerts G H ψ0 l.vertsL ψ, maskVerts G H ψ0 r.vertsL ψ))
    (fun ψp _ => mergeVerts G H l.vertsL ψp.1 ψp.2)
    ?_ ?_ ?_ ?_
  · -- forward membership
    intro ψ ha
    dsimp only
    obtain ⟨h1, h2, h3⟩ := (Finset.mem_filter.1 ha).2
    refine Finset.mem_product.2 ⟨?_, ?_⟩
    · dsimp only
      refine Finset.mem_filter.2 ⟨Finset.mem_univ _, ?_, ?_, ?_⟩
      · intro v hv
        rw [maskVerts_mem G H ψ0 _ ψ v (bag_subset_verts l v.val hv)]
        exact h1 v hv
      · intro u v h
        rw [maskVerts_mem G H ψ0 _ ψ u (covered_mem_verts G l u.val v.val h).1,
          maskVerts_mem G H ψ0 _ ψ v (covered_mem_verts G l u.val v.val h).2]
        exact h2 u v ((covered_join_iff G l r u.val v.val).2 (Or.inl h))
      · intro v hv
        exact maskVerts_not_mem G H ψ0 _ ψ v hv
    · dsimp only
      refine Finset.mem_filter.2 ⟨Finset.mem_univ _, ?_, ?_, ?_⟩
      · intro v hv
        rw [maskVerts_mem G H ψ0 _ ψ v (bag_subset_verts r v.val hv)]
        apply h1
        show v.val ∈ l.bagL
        rw [hbag]
        exact hv
      · intro u v h
        rw [maskVerts_mem G H ψ0 _ ψ u (covered_mem_verts G r u.val v.val h).1,
          maskVerts_mem G H ψ0 _ ψ v (covered_mem_verts G r u.val v.val h).2]
        exact h2 u v ((covered_join_iff G l r u.val v.val).2 (Or.inr h))
      · intro v hv
        exact maskVerts_not_mem G H ψ0 _ ψ v hv
  · -- backward membership
    intro ψp ha
    dsimp only
    obtain ⟨hal, har⟩ := Finset.mem_product.1 ha
    obtain ⟨l1, l2, l3⟩ := (Finset.mem_filter.1 hal).2
    obtain ⟨r1, r2, r3⟩ := (Finset.mem_filter.1 har).2
    have hmerge_r : ∀ v : Fin G.n, v.val ∈ r.vertsL →
        mergeVerts G H l.vertsL ψp.1 ψp.2 v = ψp.2 v := by
      intro v hv
      by_cases hvl2 : v.val ∈ l.vertsL
      · rw [mergeVerts_mem G H _ _ _ v hvl2]
        have hvb : v.val ∈ l.bagL := hover v.val hvl2 hv
        rw [l1 v hvb, r1 v (hbag ▸ hvb)]
      · rw [mergeVerts_not_mem G H _ _ _ v hvl2]
    refine Finset.mem_filter.2 ⟨Finset.mem_univ _, ?_, ?_, ?_⟩
    · intro v hv
      have hvb : v.val ∈ l.bagL := hv
      rw [mergeVerts_mem G H _ _ _ v (bag_subset_verts l v.val hvb)]
      exact l1 v hvb
    · intro u v h
      rcases (covered_join_iff G l r u.val v.val).1 h with h4 | h4
      · rw [mergeVerts_mem G H _ _ _ u (covered_mem_verts G l u.val v.val h4).1,
          mergeVerts_mem G H _ _ _ v (covered_mem_verts G l u.val v.val h4).2]
        exact l2 u v h4
      · rw [hmerge_r u (covered_mem_verts G r u.val v.val h4).1,
          hmerge_r v (covered_mem_verts G r u.val v.val h4).2]
        exact r2 u v h4
    · intro v hv
      have hvl2 : v.val ∉ l.vertsL := fun hmem =>
        hv (List.mem_append.2 (Or.inl hmem))
      have hvr2 : v.val ∉ r.vertsL := fun hmem =>
        hv (List.mem_append.2 (Or.inr hmem))
      rw [mergeVerts_not_mem G H _ _ _ v hvl2]
      exact r3 v hvr2
  · -- left inverse
    intro ψ ha
    dsimp only
    obtain ⟨_, _, h3⟩ := (Finset.mem_filter.1 ha).2
    funext v
    by_cases hvl2 : v.val ∈ l.vertsL
    · rw [mergeVerts_mem G H _ _ _ v hvl2, maskVerts_mem G H ψ0 _ ψ v hvl2]
    · rw [mergeVerts_not_mem G H _ _ _ v hvl2]
      by_cases hvr2 : v.val ∈ r.vertsL
      · rw [maskVerts_mem G H ψ0 _ ψ v hvr2]
      · apply Fin.ext
        rw [maskVerts_not_mem G H ψ0 _ ψ v hvr2]
        have hz : (ψ v).val = 0 := by
          apply h3
          intro hmem
          rcases List.mem_append.1 hmem with h4 | h4
          · exact hvl2 h4
          · exact hvr2 h4
        rw [hz]
  · -- right inverse
    intro ψp ha
    dsimp only
    obtain ⟨hal, har⟩ := Finset.mem_product.1 ha
    obtain ⟨l1, l2, l3⟩ := (Finset.mem_filter.1 hal).2
    obtain ⟨r1, r2, r3⟩ := (Finset.mem_filter.1 har).2
    have hfst : maskVerts G H ψ0 l.vertsL (mergeVerts G H l.vertsL ψp.1 ψp.2)
        = ψp.1 := by
      funext v
      by_cases hvl2 : v.val ∈ l.vertsL
      · rw [maskVerts_mem G H ψ0 _ _ v hvl2, mergeVerts_mem G H _ _ _ v hvl2]
      · apply Fin.ext
        rw [maskVerts_not_mem G H ψ0 _ _ v hvl2]
        exact (l3 v hvl2).symm
    have hsnd : maskVerts G H ψ0 r.vertsL (mergeVerts G H l.vertsL ψp.1 ψp.2)
        = ψp.2 := by
      funext v
      by_cases hvr2 : v.val ∈ r.vertsL
      · rw [maskVerts_mem G H ψ0 _ _ v hvr2]
        by_cases hvl2 : v.val ∈ l.vertsL
        · rw [mergeVerts_mem G H _ _ _ v hvl2]
          have hvb : v.val ∈ l.bagL := hover v.val hvl2 hvr2
          rw [l1 v hvb, r1 v (hbag ▸ hvb)]
        · rw [mergeVerts_not_mem G H _ _ _ v hvl2]
      · apply Fin.ext
        rw [maskVerts_not_mem G H ψ0 _ _ v hvr2]
        exact (r3 v hvr2).symm
    rw [hfst, hsnd]

theorem encodeBag_congr (k : ℕ) (l : List ℕ) (f g : ℕ → ℕ)
    (h : ∀ v ∈ l, f v = g v) : encodeBag k l f = encodeBag k l g := by
  induction l with
  | nil => rfl
  | cons v rest ih =>
    show f v + k * encodeBag k rest f = g v + k * encodeBag k rest g
    rw [h v (List.mem_cons_self v rest),
      ih (fun w hw => h w (List.mem_cons_of_mem v hw))]

/-- The DP invariant: for every valid subtree `T` and every assignment
`ψ0` of the pattern's vertices, the table cell of `T` indexed by the
encoding of `ψ0` restricted to `bag(T)` counts the partial homomorphism
extensions of `ψ0` over `T`'s subtree. -/
theorem dpTable_inv (G H : FinGraph) (hGs : G.SymmOn) (hGl : G.LooplessOn)
    (hHs : H.SymmOn) (T : NTD) :
    T.validB G = true → ∀ ψ0 : Fin G.n → Fin H.n,
      (dpTable G H T).getD (encodeBag H.n T.bagL (finMap G H ψ0)) 0 =
        extCount G H T ψ0 := by
  induction T with
  | leaf =>
    intro hT ψ0
    rw [extCount_leaf]
    rfl
  | intro x c ih =>
    intro hT ψ0
    obtain ⟨hc, hxn, hxv⟩ := (validB_intro_iff G x c).1 hT
    have hbagcn : ∀ v ∈ c.bagL, v < G.n := fun v hv =>
      verts_lt_n G c hc v (bag_subset_verts c v hv)
    have hf : ∀ v ∈ c.bagL, finMap G H ψ0 v < H.n := fun v hv =>
      finMap_lt G H ψ0 v (hbagcn v hv)
    have hxfm : finMap G H ψ0 x = (ψ0 ⟨x, hxn⟩).val := by
      unfold finMap
      rw [dif_pos hxn]
    have henc : encodeBag H.n (NTD.intro x c).bagL (finMap G H ψ0) =
        add_vertex_into_mapping (ψ0 ⟨x, hxn⟩).val
          (encodeBag H.n c.bagL (finMap G H ψ0))
          (bagIndex x (insertSorted x c.bagL)) H.n := by
      show encodeBag H.n (insertSorted x c.bagL) (finMap G H ψ0) = _
      rw [encodeBag_insertSorted H.n x c.bagL _ hf, hxfm]
    have hlen : (dpTable G H c).length = H.n ^ c.bagL.length :=
      dpTable_length G H c hc
    have hm : encodeBag H.n c.bagL (finMap G H ψ0) < (dpTable G H c).length := by
      rw [hlen]
      exact encodeBag_lt H.n c.bagL _ hf
    have hext : ∀ j, j < c.bagL.length →
        extract_bag_vertex (encodeBag H.n c.bagL (finMap G H ψ0)) j H.n =
          finMap G H ψ0 (c.bagL.getD j 0) :=
      fun j hj => extract_encodeBag H.n c.bagL _ hf j hj
    show (introTable G H c.bagL x (dpTable G H c)).getD
        (encodeBag H.n (NTD.intro x c).bagL (finMap G H ψ0)) 0 = _
    rw [henc, introTable_getD G H c.bagL x (dpTable G H c)
      (encodeBag H.n c.bagL (finMap G H ψ0)) (ψ0 ⟨x, hxn⟩).val
      hlen hm (ψ0 ⟨x, hxn⟩).isLt]
    by_cases hval : is_valid_mapping (ψ0 ⟨x, hxn⟩).val
        ((introNbhs G c.bagL x).map (fun j =>
          extract_bag_vertex (encodeBag H.n c.bagL (finMap G H ψ0)) j H.n)) H
          = true
    · rw [if_pos hval, ih hc ψ0]
      symm
      apply extCount_intro_valid G H x c hGs hGl hHs hc hxn hxv ψ0
      intro w hwb hadj
      have hjw : bagIndex w.val c.bagL < c.bagL.length :=
        bagIndex_lt_of_mem w.val c.bagL hwb
      have hwget : c.bagL.getD (bagIndex w.val c.bagL) 0 = w.val :=
        getD_bagIndex c.bagL w.val hwb
      have hjmem : bagIndex w.val c.bagL ∈ introNbhs G c.bagL x := by
        apply List.mem_filter.2
        refine ⟨List.mem_range.2 hjw, ?_⟩
        rw [hwget]
        exact hadj
      unfold is_valid_mapping at hval
      rw [List.all_eq_true] at hval
      have hv2 := hval (extract_bag_vertex (encodeBag H.n c.bagL (finMap G H ψ0))
        (bagIndex w.val c.bagL) H.n) (List.mem_map_of_mem _ hjmem)
      rw [hext (bagIndex w.val c.bagL) hjw, hwget] at hv2
      have hfw : finMap G H ψ0 w.val = (ψ0 w).val := by
        unfold finMap
        rw [dif_pos w.isLt]
      rw [hfw] at hv2
      exact hv2
    · rw [if_neg hval]
      unfold is_valid_mapping at hval
      rw [List.all_eq_true] at hval
      push_neg at hval
      obtain ⟨y, hymem, hyne⟩ := hval
      obtain ⟨j, hjmem, hyeq⟩ := List.mem_map.1 hymem
      have hjlen : j < c.bagL.length :=
        List.mem_range.1 (List.mem_filter.1 hjmem).1
      have hjadj : G.adj x (c.bagL.getD j 0) = true :=
        (List.mem_filter.1 hjmem).2
      have hwmem : c.bagL.getD j 0 ∈ c.bagL := getD_mem_of_lt c.bagL j hjlen
      have hwlt : c.bagL.getD j 0 < G.n := hbagcn _ hwmem
      have hyval : y = (ψ0 ⟨c.bagL.getD j 0, hwlt⟩).val := by
        rw [← hyeq, hext j hjlen]
        unfold finMap
        rw [dif_pos hwlt]
      symm
      apply extCount_intro_invalid G H x c hxn ψ0 ⟨c.bagL.getD j 0, hwlt⟩
        hwmem hjadj
      rw [← hyval]
      exact Bool.eq_false_iff.2 hyne
  | forget x c ih =>
    intro hT ψ0
    obtain ⟨hc, hxb⟩ := (validB_forget_iff G x c).1 hT
    have hxn : x < G.n := verts_lt_n G c hc x (bag_subset_verts c x hxb)
    have hk : 0 < H.n := Nat.lt_of_le_of_lt (Nat.zero_le _) (ψ0 ⟨x, hxn⟩).isLt
    have hsort := bag_sorted G c hc
    have hnodup : c.bagL.Nodup := hsort.nodup
    have hins : insertSorted x (c.bagL.erase x) = c.bagL :=
      insertSorted_erase x c.bagL hsort hxb
    have hbagen : ∀ v ∈ c.bagL.erase x, v < G.n := fun v hv =>
      verts_lt_n G c hc v (bag_subset_verts c v (List.erase_subset _ _ hv))
    have hfb : ∀ v ∈ c.bagL.erase x, finMap G H ψ0 v < H.n := fun v hv =>
      finMap_lt G H ψ0 v (hbagen v hv)
    have hp : encodeBag H.n (c.bagL.erase x) (finMap G H ψ0) <
        H.n ^ (c.bagL.erase x).length :=
      encodeBag_lt H.n _ _ hfb
    show (forgetTable H c.bagL x (dpTable G H c)).getD
        (encodeBag H.n (c.bagL.erase x) (finMap G H ψ0)) 0 = _
    rw [forgetTable_getD H c.bagL x (dpTable G H c) _ hp, sum_map_range,
      extCount_forget G H x c hc hxb ψ0 hxn hk]
    apply Finset.sum_congr rfl
    intro t ht
    have htk : t < H.n := Finset.mem_range.1 ht
    have hup : encodeBag H.n c.bagL
        (finMap G H (Function.update ψ0 ⟨x, hxn⟩ ⟨t % H.n, Nat.mod_lt _ hk⟩)) =
        add_vertex_into_mapping t
          (encodeBag H.n (c.bagL.erase x) (finMap G H ψ0))
          (bagIndex x c.bagL) H.n := by
      have hfb2 : ∀ v ∈ c.bagL.erase x,
          finMap G H (Function.update ψ0 ⟨x, hxn⟩ ⟨t % H.n, Nat.mod_lt _ hk⟩) v
            < H.n := fun v hv => finMap_lt G H _ v (hbagen v hv)
      have hcongr : ∀ v ∈ c.bagL.erase x,
          finMap G H (Function.update ψ0 ⟨x, hxn⟩ ⟨t % H.n, Nat.mod_lt _ hk⟩) v
            = finMap G H ψ0 v := by
        intro v hv
        have hvx : v ≠ x := (List.Nodup.mem_erase_iff hnodup).1 hv |>.1
        unfold finMap
        by_cases hvn : v < G.n
        · rw [dif_pos hvn, dif_pos hvn, Function.update_noteq]
          intro he
          exact hvx (congrArg Fin.val he)
        · rw [dif_neg hvn, dif_neg hvn]
      have hfx : finMap G H (Function.update ψ0 ⟨x, hxn⟩
          ⟨t % H.n, Nat.mod_lt _ hk⟩) x = t := by
        unfold finMap
        rw [dif_pos hxn, Function.update_same]
        exact Nat.mod_eq_of_lt htk
      conv_lhs => rw [← hins]
      rw [encodeBag_insertSorted H.n x (c.bagL.erase x) _
        (fun v hv => hfb2 v hv), hfx, hins,
        encodeBag_congr H.n (c.bagL.erase x) _ _ hcongr]
    rw [← hup, ih hc (Function.update ψ0 ⟨x, hxn⟩ ⟨t % H.n, Nat.mod_lt _ hk⟩)]
  | join l r ihl ihr =>
    intro hT ψ0
    obtain ⟨hvl, hvr, hbag, hover⟩ := (validB_join_iff G l r).1 hT
    have hbagn : ∀ v ∈ l.bagL, v < G.n := fun v hv =>
      verts_lt_n G l hvl v (bag_subset_verts l v hv)
    have hfl : ∀ v ∈ l.bagL, finMap G H ψ0 v < H.n := fun v hv =>
      finMap_lt G H ψ0 v (hbagn v hv)
    have hpl : encodeBag H.n l.bagL (finMap G H ψ0) < (dpTable G H l).length := by
      rw [dpTable_length G H l hvl]
      exact encodeBag_lt H.n _ _ hfl
    have hpr : encodeBag H.n l.bagL (finMap G H ψ0) < (dpTable G H r).length := by
      rw [dpTable_length G H r hvr, ← hbag]
      exact encodeBag_lt H.n _ _ hfl
    have hr2 := ihr hvr ψ0
    rw [← hbag] at hr2
    show (joinTable (dpTable G H l) (dpTable G H r)).getD
        (encodeBag H.n l.bagL (finMap G H ψ0)) 0 = _
    rw [joinTable_getD (dpTable G H l) (dpTable G H r) _ hpl hpr,
      ihl hvl ψ0, hr2, extCount_join G H l r hbag hover ψ0]

/-! ## From the root cell to the brute-force count -/

theorem getD_range (n j : ℕ) (hj : j < n) : (List.range n).getD j 0 = j := by
  rw [List.getD_eq_getElem?_getD, List.getElem?_range hj]
  rfl

theorem length_filter_range (N : ℕ) (p : ℕ → Bool) :
    ((List.range N).filter p).length =
      ((Finset.range N).filter (fun x => p x = true)).card := by
  induction N with
  | zero => rfl
  | succ N ih =>
    rw [List.range_succ, List.filter_append, List.length_append, ih,
      Finset.range_succ, Finset.filter_insert]
    by_cases hp : p N = true
    · rw [if_pos hp]
      rw [Finset.card_insert_of_not_mem (fun hmem =>
        Nat.lt_irrefl N (Finset.mem_range.1 (Finset.mem_filter.1 hmem).1))]
      simp [hp]
    · rw [if_neg hp]
      simp [hp]

theorem encodeBag_map_succ (k : ℕ) (l : List ℕ) (f : ℕ → ℕ) :
    encodeBag k (l.map Nat.succ) f = encodeBag k l (fun v => f (v + 1)) := by
  induction l with
  | nil => rfl
  | cons a l ih =>
    show f (a + 1) + k * encodeBag k (l.map Nat.succ) f = _
    rw [ih]
    rfl

theorem extract_succ_div (code i k : ℕ) :
    extract_bag_vertex code (i + 1) k = extract_bag_vertex (code / k) i k := by
  unfold extract_bag_vertex
  rw [Nat.div_div_eq_div_mul]
  congr 2
  rw [pow_succ]
  ring

theorem encodeBag_extract_range (k : ℕ) (hk : 0 < k) :
    ∀ (n code : ℕ), code < k ^ n →
      encodeBag k (List.range n) (fun v => extract_bag_vertex code v k) = code := by
  intro n
  induction n with
  | zero =>
    intro code hcode
    rw [pow_zero] at hcode
    interval_cases code
    rfl
  | succ n ih =>
    intro code hcode
    rw [List.range_succ_eq_map]
    show extract_bag_vertex code 0 k +
      k * encodeBag k ((List.range n).map Nat.succ)
        (fun v => extract_bag_vertex code v k) = code
    rw [encodeBag_map_succ]
    have hdiv : code / k < k ^ n := by
      apply Nat.div_lt_of_lt_mul
      rw [pow_succ] at hcode
      calc code < k ^ n * k := hcode
        _ = k * k ^ n := by ring
    have hstep : encodeBag k (List.range n)
        (fun v => extract_bag_vertex code (v + 1) k) =
        encodeBag k (List.range n)
          (fun v => extract_bag_vertex (code / k) v k) := by
      apply encodeBag_congr
      intro v _
      exact extract_succ_div code v k
    rw [hstep, ih (code / k) hdiv]
    show code / k ^ 0 % k + k * (code / k) = code
    rw [pow_zero, Nat.div_one]
    rw [Nat.add_comm]
    exact Nat.div_add_mod code k

theorem mem_edges_iff (G : FinGraph) (u v : ℕ) :
    (u, v) ∈ G.edges ↔ u < G.n ∧ v < G.n ∧ u < v ∧ G.adj u v = true := by
  unfold FinGraph.edges
  simp only [List.mem_flatMap, List.mem_map, List.mem_filter, List.mem_range,
    Bool.and_eq_true, decide_eq_true_eq]
  constructor
  · rintro ⟨a, ha, b, ⟨hb, hab, hadj⟩, heq⟩
    obtain ⟨h1, h2⟩ := Prod.mk.injEq a b u v ▸ heq
    subst h1
    subst h2
    exact ⟨ha, hb, hab, hadj⟩
  · rintro ⟨hu, hv, huv, hadj⟩
    exact ⟨u, hu, v, ⟨hv, huv, hadj⟩, rfl⟩

/-- The number of assignments of all vertices preserving all edges of `G`
equals the brute-force enumeration count. -/
theorem hom_filter_card (G H : FinGraph) (hGs : G.SymmOn) (hGl : G.LooplessOn)
    (hHs : H.SymmOn) :
    (Finset.univ.filter (fun ψ : Fin G.n → Fin H.n =>
      ∀ u v : Fin G.n, G.adj u.val v.val = true →
        H.adj (ψ u).val (ψ v).val = true)).card =
      count_homomorphisms_brute G H := by
  rw [count_homomorphisms_brute, length_filter_range]
  rcases Nat.eq_zero_or_pos H.n with hH | hk
  · rcases Nat.eq_zero_or_pos G.n with hG | hG
    · -- both empty: single empty function and single code 0
      have h1 : (Finset.univ.filter (fun ψ : Fin G.n → Fin H.n =>
          ∀ u v : Fin G.n, G.adj u.val v.val = true →
            H.adj (ψ u).val (ψ v).val = true)) = Finset.univ := by
        apply Finset.filter_true_of_mem
        intro ψ _ u v
        exact absurd u.isLt (by omega)
      have h2 : (Finset.range (H.n ^ G.n)).filter (fun c =>
          is_homomorphism G H (fun v => extract_bag_vertex c v H.n) = true)
          = Finset.range (H.n ^ G.n) := by
        apply Finset.filter_true_of_mem
        intro c _
        rw [is_homomorphism, List.all_eq_true]
        intro e he
        have he2 : (e.1, e.2) ∈ G.edges := by
          rw [Prod.mk.eta]
          exact he
        rw [mem_edges_iff] at he2
        omega
      rw [h1, h2, Finset.card_range, Finset.card_univ, Fintype.card_fun,
        Fintype.card_fin, Fintype.card_fin]
    · -- empty target, nonempty pattern: both sides are zero
      have h2 : H.n ^ G.n = 0 := by
        rw [hH]
        exact Nat.zero_pow (by omega)
      have h1 : (Finset.univ : Finset (Fin G.n → Fin H.n)).card = 0 := by
        rw [Finset.card_univ, Fintype.card_fun, Fintype.card_fin,
          Fintype.card_fin, hH]
        exact Nat.zero_pow (by omega)
      have h4 : ((Finset.range (H.n ^ G.n)).filter (fun c =>
          is_homomorphism G H (fun v => extract_bag_vertex c v H.n)
            = true)).card ≤ H.n ^ G.n := by
        calc ((Finset.range (H.n ^ G.n)).filter (fun c =>
              is_homomorphism G H (fun v => extract_bag_vertex c v H.n)
                = true)).card
            ≤ (Finset.range (H.n ^ G.n)).card := Finset.card_filter_le _ _
          _ = H.n ^ G.n := Finset.card_range _
      have h5 : (Finset.univ.filter (fun ψ : Fin G.n → Fin H.n =>
          ∀ u v : Fin G.n, G.adj u.val v.val = true →
            H.adj (ψ u).val (ψ v).val = true)).card ≤
          (Finset.univ : Finset (Fin G.n → Fin H.n)).card :=
        Finset.card_filter_le _ _
      rw [h1] at h5
      rw [Nat.le_zero] at h5
      have hB0 := Nat.le_zero.1 (le_trans h4 (le_of_eq h2))
      rw [h5, hB0]
  · -- inhabited target: explicit bijection between assignments and codes
    refine Finset.card_bij'
      (fun ψ _ => encodeBag H.n (List.range G.n) (finMap G H ψ))
      (fun code _ => fun v => ⟨extract_bag_vertex code v.val H.n,
        Nat.mod_lt _ hk⟩) ?_ ?_ ?_ ?_
    · intro ψ ha
      dsimp only
      obtain hpsi := (Finset.mem_filter.1 ha).2
      have hflt : ∀ v ∈ List.range G.n, finMap G H ψ v < H.n := by
        intro v hv
        exact finMap_lt G H ψ v (List.mem_range.1 hv)
      refine Finset.mem_filter.2 ⟨?_, ?_⟩
      · apply Finset.mem_range.2
        have := encodeBag_lt H.n (List.range G.n) (finMap G H ψ) hflt
        rw [List.length_range] at this
        exact this
      · rw [is_homomorphism, List.all_eq_true]
        intro e he
        have he2 : (e.1, e.2) ∈ G.edges := by
          rw [Prod.mk.eta]
          exact he
        rw [mem_edges_iff] at he2
        obtain ⟨h1, h2, _, hadj⟩ := he2
        have hx1 : extract_bag_vertex
            (encodeBag H.n (List.range G.n) (finMap G H ψ)) e.1 H.n =
            (ψ ⟨e.1, h1⟩).val := by
          rw [extract_encodeBag H.n (List.range G.n) _ hflt e.1
            (by rw [List.length_range]; exact h1), getD_range G.n e.1 h1]
          unfold finMap
          rw [dif_pos h1]
        have hx2 : extract_bag_vertex
            (encodeBag H.n (List.range G.n) (finMap G H ψ)) e.2 H.n =
            (ψ ⟨e.2, h2⟩).val := by
          rw [extract_encodeBag H.n (List.range G.n) _ hflt e.2
            (by rw [List.length_range]; exact h2), getD_range G.n e.2 h2]
          unfold finMap
          rw [dif_pos h2]
        rw [hx1, hx2]
        exact hpsi ⟨e.1, h1⟩ ⟨e.2, h2⟩ hadj
    · intro code hc
      dsimp only
      obtain ⟨hrange, hcode⟩ := Finset.mem_filter.1 hc
      refine Finset.mem_filter.2 ⟨Finset.mem_univ _, ?_⟩
      intro u v hadj
      rw [is_homomorphism, List.all_eq_true] at hcode
      rcases Nat.lt_trichotomy u.val v.val with hlt | heq | hgt
      · have hmem : (u.val, v.val) ∈ G.edges :=
          (mem_edges_iff G u.val v.val).2 ⟨u.isLt, v.isLt, hlt, hadj⟩
        exact hcode (u.val, v.val) hmem
      · exfalso
        have huv : u = v := Fin.ext heq
        subst huv
        rw [hGl u.val u.isLt] at hadj
        cases hadj
      · have hadj2 : G.adj v.val u.val = true := by
          rw [hGs v.val v.isLt u.val u.isLt]
          exact hadj
        have hmem : (v.val, u.val) ∈ G.edges :=
          (mem_edges_iff G v.val u.val).2 ⟨v.isLt, u.isLt, hgt, hadj2⟩
        have hres := hcode (v.val, u.val) hmem
        dsimp only at hres
        have hb1 : extract_bag_vertex code u.val H.n < H.n := Nat.mod_lt _ hk
        have hb2 : extract_bag_vertex code v.val H.n < H.n := Nat.mod_lt _ hk
        have hflip : H.adj (extract_bag_vertex code u.val H.n)
            (extract_bag_vertex code v.val H.n) = true := by
          rw [hHs (extract_bag_vertex code u.val H.n) hb1
            (extract_bag_vertex code v.val H.n) hb2]
          exact hres
        exact hflip
    · intro ψ _
      dsimp only
      funext v
      apply Fin.ext
      show extract_bag_vertex
        (encodeBag H.n (List.range G.n) (finMap G H ψ)) v.val H.n = (ψ v).val
      have hflt : ∀ w ∈ List.range G.n, finMap G H ψ w < H.n := by
        intro w hw
        exact finMap_lt G H ψ w (List.mem_range.1 hw)
      rw [extract_encodeBag H.n (List.range G.n) _ hflt v.val
        (by rw [List.length_range]; exact v.isLt),
        getD_range G.n v.val v.isLt]
      unfold finMap
      rw [dif_pos v.isLt]
    · intro code hc
      dsimp only
      obtain ⟨hrange, _⟩ := Finset.mem_filter.1 hc
      have hcode : code < H.n ^ G.n := Finset.mem_range.1 hrange
      have hcongr : encodeBag H.n (List.range G.n)
          (finMap G H (fun v => ⟨extract_bag_vertex code v.val H.n,
            Nat.mod_lt _ hk⟩)) =
          encodeBag H.n (List.range G.n)
            (fun v => extract_bag_vertex code v H.n) := by
        apply encodeBag_congr
        intro v hv
        unfold finMap
        rw [dif_pos (List.mem_range.1 hv)]
      rw [hcongr, encodeBag_extract_range H.n hk G.n code hcode]

/-- At an empty root bag covering all vertices and all edges, the
extension count is the full homomorphism count. -/
theorem extCount_root (G H : FinGraph) (hGs : G.SymmOn) (hGl : G.LooplessOn)
    (hHs : H.SymmOn) (T : NTD) (hbag : T.bagL = [])
    (hverts : ∀ v < G.n, v ∈ T.vertsL)
    (hcov : ∀ u < G.n, ∀ v < G.n, G.adj u v = true → T.covered G u v = true)
    (ψ0 : Fin G.n → Fin H.n) :
    extCount G H T ψ0 = count_homomorphisms_brute G H := by
  rw [← hom_filter_card G H hGs hGl hHs, extCount]
  congr 1
  ext ψ
  simp only [Finset.mem_filter, Finset.mem_univ, true_and]
  unfold extProp
  constructor
  · rintro ⟨h1, h2, h3⟩ u v hadj
    exact h2 u v (hcov u.val u.isLt v.val v.isLt hadj)
  · intro h
    refine ⟨?_, ?_, ?_⟩
    · intro v hv
      rw [hbag] at hv
      cases hv
    · intro u v hcv
      exact h u v (covered_adj G T u.val v.val hcv)
    · intro v hv
      exact absurd (hverts v.val v.isLt) hv

/-- Empty target graph, non-trivial tree: the root cell is `0` (the
intro tables are all-zero and the forget sums are empty). -/
theorem dpTable_zero (G H : FinGraph) (hH : H.n = 0) (T : NTD) :
    T.validB G = true → T.bagL = [] → T.vertsL ≠ [] →
      (dpTable G H T).getD 0 0 = 0 := by
  induction T with
  | leaf =>
    intro _ _ hne
    exact absurd rfl hne
  | intro x c ih =>
    intro hT hbag hne
    exfalso
    have hlen := congrArg List.length hbag
    simp only [NTD.bagL, length_insertSorted, List.length_nil] at hlen
    omega
  | forget x c ih =>
    intro hT hbag hne
    have hb : c.bagL.erase x = [] := hbag
    have hp : (0 : ℕ) < H.n ^ (c.bagL.erase x).length := by
      rw [hb]
      simp
    show (forgetTable H c.bagL x (dpTable G H c)).getD 0 0 = 0
    rw [forgetTable_getD H c.bagL x _ 0 hp, hH]
    rfl
  | join l r ihl ihr =>
    intro hT hbag hne
    obtain ⟨hvl, hvr, hbageq, hover⟩ := (validB_join_iff G l r).1 hT
    have hbl : l.bagL = [] := hbag
    have hbr : r.bagL = [] := by
      rw [← hbageq]
      exact hbl
    have hll : (dpTable G H l).length = 1 := by
      rw [dpTable_length G H l hvl, hbl]
      rfl
    have hlr : (dpTable G H r).length = 1 := by
      rw [dpTable_length G H r hvr, hbr]
      rfl
    show (joinTable (dpTable G H l) (dpTable G H r)).getD 0 0 = 0
    rw [joinTable_getD _ _ 0 (by omega) (by omega)]
    by_cases hvle : l.vertsL = []
    · have hrne : r.vertsL ≠ [] := by
        intro h
        apply hne
        show l.vertsL ++ r.vertsL = []
        rw [hvle, h]
        rfl
      rw [ihr hvr hbr hrne, Nat.mul_zero]
    · rw [ihl hvl hbl hvle, Nat.zero_mul]

/-- The driver's return value: for any valid nice tree decomposition of
`G` with empty root bag that covers all vertices and all edges of `G`,
the DP count equals the brute-force homomorphism count. -/
theorem dpCount_eq_brute (G H : FinGraph) (hGs : G.SymmOn)
    (hGl : G.LooplessOn) (hHs : H.SymmOn) (T : NTD)
    (hT : T.validB G = true) (hbag : T.bagL = [])
    (hverts : ∀ v < G.n, v ∈ T.vertsL)
    (hcov : ∀ u < G.n, ∀ v < G.n, G.adj u v = true → T.covered G u v = true) :
    dpCount G H T = count_homomorphisms_brute G H := by
  unfold dpCount
  have hbody : ∀ ψ0 : Fin G.n → Fin H.n,
      (dpTable G H T).getD 0 0 = count_homomorphisms_brute G H := by
    intro ψ0
    have hinv := dpTable_inv G H hGs hGl hHs T hT ψ0
    have henc : encodeBag H.n T.bagL (finMap G H ψ0) = 0 := by
      rw [hbag]
      rfl
    rw [henc] at hinv
    rw [hinv, extCount_root G H hGs hGl hHs T hbag hverts hcov ψ0]
  rcases Nat.eq_zero_or_pos H.n with hH | hk
  · rcases Nat.eq_zero_or_pos G.n with hG | hG
    · exact hbody (fun v => absurd v.isLt (by omega))
    · have hne : T.vertsL ≠ [] := by
        intro h
        have hmem := hverts 0 (by omega)
        rw [h] at hmem
        cases hmem
      rw [dpTable_zero G H hH T hT hbag hne, count_homomorphisms_brute]
      have hz : H.n ^ G.n = 0 := by
        rw [hH]
        exact Nat.zero_pow (by omega)
      rw [hz]
      rfl
  · exact hbody (fun _ => ⟨0, hk⟩)

/-! ## Dense target representation (C7)

`_add_intro_node_best` switches the edge test of the intro step to `H`'s
adjacency matrix when `density(H) ≥ density_threshold`. -/

/-- `target_graph.adjacency_matrix()`: the dense 0/1 matrix of `H`. -/
def FinGraph.adjacency_matrix (H : FinGraph) : List (List ℕ) :=
  (List.range H.n).map (fun u =>
    (List.range H.n).map (fun v => if H.adj u v then 1 else 0))

/-- Modelled from the spec: the matrix-based variant of
`is_valid_mapping` used on the dense path of `_add_intro_node_best`
(`target = target_adj_mat`) lives in the module `local_tree_decomp`,
which is not part of the source tree; per the spec the dense
representation only replaces the `has_edge` test by an O(1) matrix
lookup (a nonzero entry means an edge). -/
def is_valid_mapping_dense (mapped_intro_vtx : ℕ) (mapped_nbhrs : List ℕ)
    (target_adj_mat : List (List ℕ)) : Bool :=
  mapped_nbhrs.all (fun vtx =>
    (target_adj_mat.getD mapped_intro_vtx []).getD vtx 0 != 0)

theorem adjacency_matrix_entry (H : FinGraph) (t y : ℕ)
    (ht : t < H.n) (hy : y < H.n) :
    ((H.adjacency_matrix).getD t []).getD y 0 = if H.adj t y then 1 else 0 := by
  unfold FinGraph.adjacency_matrix
  have hrow : ((List.range H.n).map (fun u =>
      (List.range H.n).map (fun v => if H.adj u v then 1 else 0))).getD t [] =
      (List.range H.n).map (fun v => if H.adj t v then 1 else 0) := by
    rw [List.getD_eq_getElem?_getD, List.getElem?_map, List.getElem?_range ht]
    rfl
  rw [hrow, getD_map_range _ _ _ hy]

theorem is_valid_mapping_dense_eq (H : FinGraph) (t : ℕ) (nbrs : List ℕ)
    (ht : t < H.n) (hn : ∀ y ∈ nbrs, y < H.n) :
    is_valid_mapping_dense t nbrs H.adjacency_matrix =
      is_valid_mapping t nbrs H := by
  unfold is_valid_mapping_dense is_valid_mapping
  induction nbrs with
  | nil => rfl
  | cons y rest ih =>
    rw [List.all_cons, List.all_cons,
      ih (fun z hz => hn z (List.mem_cons_of_mem _ hz))]
    congr 1
    rw [adjacency_matrix_entry H t y ht (hn y (List.mem_cons_self _ _))]
    cases hadj : H.adj t y <;> simp

/-- The inner intro loop with the dense (matrix) edge test. -/
def introInnerDense (H : FinGraph) (nbrs : List ℕ) (base K val : ℕ)
    (k : ℕ) (acc : List ℕ) : List ℕ :=
  (List.range k).foldl (fun acc2 t =>
    if is_valid_mapping_dense t nbrs H.adjacency_matrix then
      acc2.set (base + t * K) val
    else acc2) acc

theorem introInnerDense_eq (H : FinGraph) (nbrs : List ℕ) (base K val : ℕ)
    (k : ℕ) (acc : List ℕ) (hk : k ≤ H.n) (hn : ∀ y ∈ nbrs, y < H.n) :
    introInnerDense H nbrs base K val k acc =
      introInner H nbrs base K val k acc := by
  induction k with
  | zero => rfl
  | succ k ih =>
    have hstepd : introInnerDense H nbrs base K val (k + 1) acc =
        (if is_valid_mapping_dense k nbrs H.adjacency_matrix then
          (introInnerDense H nbrs base K val k acc).set (base + k * K) val
        else introInnerDense H nbrs base K val k acc) := by
      unfold introInnerDense
      rw [List.range_succ, List.foldl_append]
      rfl
    have hsteps : introInner H nbrs base K val (k + 1) acc =
        (if is_valid_mapping k nbrs H then
          (introInner H nbrs base K val k acc).set (base + k * K) val
        else introInner H nbrs base K val k acc) := by
      unfold introInner
      rw [List.range_succ, List.foldl_append]
      rfl
    rw [hstepd, hsteps, ih (by omega),
      is_valid_mapping_dense_eq H k nbrs (by omega) hn]

/-- The outer intro loop with the dense edge test. -/
def introLoopDense (G H : FinGraph) (childBag : List ℕ) (x : ℕ)
    (child : List ℕ) (M : ℕ) (acc : List ℕ) : List ℕ :=
  (List.range M).foldl (fun acc mapped =>
    introInnerDense H
      ((introNbhs G childBag x).map (fun j => extract_bag_vertex mapped j H.n))
      (add_vertex_into_mapping 0 mapped (bagIndex x (insertSorted x childBag)) H.n)
      (H.n ^ bagIndex x (insertSorted x childBag))
      (child.getD mapped 0) H.n acc) acc

theorem introLoopDense_eq (G H : FinGraph) (childBag : List ℕ) (x : ℕ)
    (child : List ℕ) (M : ℕ) (acc : List ℕ) :
    introLoopDense G H childBag x child M acc =
      introLoop G H childBag x child M acc := by
  induction M with
  | zero => rfl
  | succ M ih =>
    have hstepd : introLoopDense G H childBag x child (M + 1) acc =
        introInnerDense H
          ((introNbhs G childBag x).map (fun j => extract_bag_vertex M j H.n))
          (add_vertex_into_mapping 0 M (bagIndex x (insertSorted x childBag)) H.n)
          (H.n ^ bagIndex x (insertSorted x childBag))
          (child.getD M 0) H.n (introLoopDense G H childBag x child M acc) := by
      unfold introLoopDense
      rw [List.range_succ, List.foldl_append]
      rfl
    have hsteps : introLoop G H childBag x child (M + 1) acc =
        introInner H
          ((introNbhs G childBag x).map (fun j => extract_bag_vertex M j H.n))
          (add_vertex_into_mapping 0 M (bagIndex x (insertSorted x childBag)) H.n)
          (H.n ^ bagIndex x (insertSorted x childBag))
          (child.getD M 0) H.n (introLoop G H childBag x child M acc) := by
      unfold introLoop
      rw [List.range_succ, List.foldl_append]
      rfl
    rw [hstepd, hsteps, ih]
    rcases Nat.eq_zero_or_pos H.n with hH | hk
    · unfold introInnerDense introInner
      rw [hH]
      rfl
    · apply introInnerDense_eq
      · exact Nat.le_refl H.n
      · intro y hy
        obtain ⟨j, _, hj⟩ := List.mem_map.1 hy
        rw [← hj]
        exact Nat.mod_lt _ hk

/-- The intro-node table with the dense edge test. -/
def introTableDense (G H : FinGraph) (childBag : List ℕ) (x : ℕ)
    (child : List ℕ) : List ℕ :=
  introLoopDense G H childBag x child child.length
    (List.replicate (H.n ^ (insertSorted x childBag).length) 0)

/-- The full DP with the dense target representation in the intro step. -/
def dpTableDense (G H : FinGraph) : NTD → List ℕ
  | .leaf => [1]
  | .intro x c => introTableDense G H c.bagL x (dpTableDense G H c)
  | .forget x c => forgetTable H c.bagL x (dpTableDense G H c)
  | .join l r => joinTable (dpTableDense G H l) (dpTableDense G H r)

/-- The driver's return value on the dense path. -/
def dpCountDense (G H : FinGraph) (T : NTD) : ℕ :=
  (dpTableDense G H T).getD 0 0

theorem dpTableDense_eq (G H : FinGraph) (T : NTD) :
    dpTableDense G H T = dpTable G H T := by
  induction T with
  | leaf => rfl
  | intro x c ih =>
    show introTableDense G H c.bagL x (dpTableDense G H c) =
      introTable G H c.bagL x (dpTable G H c)
    rw [ih]
    unfold introTableDense introTable
    rw [introLoopDense_eq]
  | forget x c ih =>
    show forgetTable H c.bagL x (dpTableDense G H c) =
      forgetTable H c.bagL x (dpTable G H c)
    rw [ih]
  | join l r ihl ihr =>
    show joinTable (dpTableDense G H l) (dpTableDense G H r) =
      joinTable (dpTable G H l) (dpTable G H r)
    rw [ihl, ihr]

/-! ## The empty-pattern code path (C6) -/

/-- `make_nice_tree_decomposition` for an empty (falsy) input tree
decomposition (`nice_tree_decomp.py`, the `if not tree_decomp: return
Graph(name=name)` branch): the returned nice tree decomposition has no
nodes, modelled by its (empty) node list. -/
def make_nice_tree_decomposition_empty : List (ℕ × List ℕ) := []

/-- `root = sorted(nice_tree_decomp)[0]` in the drivers: the first node
of the sorted node list; `none` models the `IndexError` raised on an
empty list. -/
def driver_root (nodes : List (ℕ × List ℕ)) : Option (ℕ × List ℕ) :=
  nodes.head?

/-- The empty pattern graph (0 vertices, no edges). -/
def emptyGraph : FinGraph := ⟨0, fun _ _ => false⟩

/-! ## The colourful guard (C8) -/

/-- The `colourful` guard of `GraphHomomorphismCounter.__init__`
(`local_hom_count_best.py`): `if colourful and (graph_clr is None or
target_clr is None): raise ValueError(...)`; `true` means the
`MissingColouring` error is raised. -/
def missing_colouring_check (colourful : Bool)
    (graph_clr target_clr : Option (List ℕ)) : Bool :=
  colourful && (graph_clr.isNone || target_clr.isNone)

/-! ## The colourful intro-node arithmetic (C9) -/

/-- Modelled from the spec: `count_occurrences` (called by the colourful
branch of `_add_intro_node_best` but defined in no module of the source
tree) is a `Counter`, giving each colour's multiplicity in a list. -/
def count_occurrences (l : List ℕ) (c : ℕ) : ℕ := l.count c

/-- Modelled from the spec: `list_intersection` (likewise missing from
the source tree) returns the relevant colours, those occurring both in
the node's colour counter and in the target colour list. -/
def list_intersection (node_clrs target_clr : List ℕ) : List ℕ :=
  node_clrs.dedup.filter (fun c => target_clr.contains c)

/-- `mappings_length` of the colourful branch of `_add_intro_node_best`:
`prod(target_clr_counter[i] ** node_clr_counter[i] for i in
clr_intersection)`. -/
def colourful_mappings_length (node_clrs target_clr : List ℕ) : ℕ :=
  ((list_intersection node_clrs target_clr).map (fun i =>
    count_occurrences target_clr i ^ count_occurrences node_clrs i)).prod

/-- `max_colour_size` of the colourful branch:
`max(max(node_clr_counter[i], target_clr_counter[i]) for i in
clr_intersection)`. -/
def max_colour_size (node_clrs target_clr : List ℕ) : ℕ :=
  ((list_intersection node_clrs target_clr).map (fun i =>
    max (count_occurrences node_clrs i) (count_occurrences target_clr i))).foldr
    max 0

/-- The write index reached by the colourful branch after `t` candidate
targets: `mapping = add_vertex_into_mapping(0, mapped, intro_vtx_index,
k)` advanced `t` times by `k ** max_colour_size` (`mapping +=
target_graph_size ** max_colour_size`). -/
def colourful_write_index (mapped intro_vtx_index t k : ℕ)
    (node_clrs target_clr : List ℕ) : ℕ :=
  add_vertex_into_mapping 0 mapped intro_vtx_index k +
    t * k ^ max_colour_size node_clrs target_clr

/-! ## Claim theorems -/

/-- C1: for every pair of simple undirected graphs `G` and `H` on
`0..n-1` (in particular all graphs with at most 6 vertices), and every
valid nice tree decomposition of `G` (empty root bag, all vertices and
edges covered — the tree-decomposition axioms guaranteed by the
out-of-scope producer), the DP-based count returns a (non-negative)
natural number equal to the number of homomorphisms from `G` to `H` as
computed by brute-force enumeration of all `|V(H)|^|V(G)|` maps. -/
theorem C1_dp_count_agrees_with_brute_force (G H : FinGraph)
    (hGs : G.SymmOn) (hGl : G.LooplessOn) (hHs : H.SymmOn) (T : NTD)
    (hT : T.validB G = true) (hbag : T.bagL = [])
    (hverts : ∀ v < G.n, v ∈ T.vertsL)
    (hcov : ∀ u < G.n, ∀ v < G.n, G.adj u v = true → T.covered G u v = true) :
    dpCount G H T = count_homomorphisms_brute G H :=
  dpCount_eq_brute G H hGs hGl hHs T hT hbag hverts hcov

/-- The edge `K_2`, the triangle `K_3`, and a nice tree decomposition of
`K_2`, used as concrete witnesses. -/
def exK2 : FinGraph := ⟨2, fun u v => (u == 0 && v == 1) || (u == 1 && v == 0)⟩

def exK3 : FinGraph :=
  ⟨3, fun u v => !(u == v) && decide (u < 3) && decide (v < 3)⟩

def exT23 : NTD := .forget 0 (.forget 1 (.intro 1 (.intro 0 .leaf)))

theorem C1_witness :
    exK2.SymmOn ∧ exK2.LooplessOn ∧ exK3.SymmOn ∧
      exT23.validB exK2 = true ∧ exT23.bagL = [] ∧
      (∀ v < exK2.n, v ∈ exT23.vertsL) ∧
      (∀ u < exK2.n, ∀ v < exK2.n, exK2.adj u v = true →
        exT23.covered exK2 u v = true) ∧
      dpCount exK2 exK3 exT23 = count_homomorphisms_brute exK2 exK3 ∧
      dpCount exK2 exK3 exT23 = 6 := by
  have hGs : exK2.SymmOn := by unfold FinGraph.SymmOn; decide
  have hGl : exK2.LooplessOn := by unfold FinGraph.LooplessOn; decide
  have hHs : exK3.SymmOn := by unfold FinGraph.SymmOn; decide
  have hT : exT23.validB exK2 = true := by decide
  have hbag : exT23.bagL = [] := by decide
  have hverts : ∀ v < exK2.n, v ∈ exT23.vertsL := by decide
  have hcov : ∀ u < exK2.n, ∀ v < exK2.n, exK2.adj u v = true →
      exT23.covered exK2 u v = true := by decide
  exact ⟨hGs, hGl, hHs, hT, hbag, hverts, hcov,
    C1_dp_count_agrees_with_brute_force exK2 exK3 hGs hGl hHs exT23
      hT hbag hverts hcov, by decide⟩

/-- C2: for every intro node introducing vertex `x` at position `i` of
its bag, every encoded child assignment `m < k^(b-1)` and every candidate
target `t < k`, the cell of the intro table at `p = insert(m, i, t)`
equals the child's cell at `m` if every image `y = extract(m, j)` of a
neighbour of `x` present in the child's bag satisfies `hasEdge_H(t, y)`,
and equals `0` otherwise. -/
theorem C2_intro_node_cell (G H : FinGraph) (childBag : List ℕ) (x : ℕ)
    (child : List ℕ) (m t : ℕ)
    (hlen : child.length = H.n ^ childBag.length)
    (hm : m < child.length) (ht : t < H.n) :
    (introTable G H childBag x child).getD
        (add_vertex_into_mapping t m
          (bagIndex x (insertSorted x childBag)) H.n) 0 =
      if is_valid_mapping t ((introNbhs G childBag x).map
          (fun j => extract_bag_vertex m j H.n)) H
      then child.getD m 0 else 0 :=
  introTable_getD G H childBag x child m t hlen hm ht

theorem C2_witness :
    ([1, 1, 1] : List ℕ).length = exK3.n ^ ([0] : List ℕ).length ∧
      (0 : ℕ) < ([1, 1, 1] : List ℕ).length ∧ (1 : ℕ) < exK3.n ∧
      (introTable exK2 exK3 [0] 1 [1, 1, 1]).getD
          (add_vertex_into_mapping 1 0
            (bagIndex 1 (insertSorted 1 [0])) exK3.n) 0 =
        (if is_valid_mapping 1 ((introNbhs exK2 [0] 1).map
            (fun j => extract_bag_vertex 0 j exK3.n)) exK3
        then ([1, 1, 1] : List ℕ).getD 0 0 else 0) :=
  ⟨by decide, by decide, by decide,
    C2_intro_node_cell exK2 exK3 [0] 1 [1, 1, 1] 0 1 (by decide) (by decide)
      (by decide)⟩

/-- C3: for every forget node forgetting vertex `x` at position `j` of
the child's bag tuple, and every encoded assignment `p < k^|bag(n)|`, the
cell of the forget table at `p` equals the sum over all target vertices
`t` of the child's cell at `insert(p, j, t)`. -/
theorem C3_forget_node_cell (H : FinGraph) (childBag : List ℕ) (x : ℕ)
    (child : List ℕ) (p : ℕ)
    (hp : p < H.n ^ (childBag.erase x).length) :
    (forgetTable H childBag x child).getD p 0 =
      ((List.range H.n).map (fun t =>
        child.getD (add_vertex_into_mapping t p (bagIndex x childBag) H.n)
          0)).sum :=
  forgetTable_getD H childBag x child p hp

theorem C3_witness :
    (1 : ℕ) < exK3.n ^ (([0, 1] : List ℕ).erase 1).length ∧
      (forgetTable exK3 [0, 1] 1 [0, 1, 2, 3, 4, 5, 6, 7, 8]).getD 1 0 =
        ((List.range exK3.n).map (fun t =>
          ([0, 1, 2, 3, 4, 5, 6, 7, 8] : List ℕ).getD
            (add_vertex_into_mapping t 1 (bagIndex 1 [0, 1]) exK3.n)
            0)).sum :=
  ⟨by decide,
    C3_forget_node_cell exK3 [0, 1] 1 [0, 1, 2, 3, 4, 5, 6, 7, 8] 1
      (by decide)⟩

/-- C4: the join table is the pointwise product of the two children's
tables, and the two children may be taken in either order.  (This is the
behaviour of `_add_join_node_int`; the `_add_join_node_best` variant
never completes because it reads the undefined name `dir_labelled_TD`.) -/
theorem C4_join_node_product (left right : List ℕ) (p : ℕ) :
    (joinTable left right).getD p 0 = left.getD p 0 * right.getD p 0 ∧
      (joinTable left right).getD p 0 = (joinTable right left).getD p 0 := by
  have hmain : ∀ a b : List ℕ, ∀ q : ℕ,
      (joinTable a b).getD q 0 = a.getD q 0 * b.getD q 0 := by
    intro a b q
    by_cases ha : q < a.length
    · by_cases hb : q < b.length
      · exact joinTable_getD a b q ha hb
      · have h1 : b.getD q 0 = 0 := List.getD_eq_default _ _ (by omega)
        have h2 : (joinTable a b).getD q 0 = 0 := by
          apply List.getD_eq_default
          rw [joinTable_length]
          omega
        rw [h1, h2, Nat.mul_zero]
    · have h1 : a.getD q 0 = 0 := List.getD_eq_default _ _ (by omega)
      have h2 : (joinTable a b).getD q 0 = 0 := by
        apply List.getD_eq_default
        rw [joinTable_length]
        omega
      rw [h1, h2, Nat.zero_mul]
  refine ⟨hmain left right p, ?_⟩
  rw [hmain left right p, hmain right left p, Nat.mul_comm]

/-- C5: the codec round trip: for every base `k ≥ 1`, every `p` with at
most `i` digits, every position `i` and every digit `d < k`,
`remove(insert(p, i, d), i) = p` and `extract(insert(p, i, d), i) = d`. -/
theorem C5_codec_round_trip (k p i d : ℕ) (hk : 1 ≤ k) (hd : d < k)
    (hp : p < k ^ i) :
    remove_vertex_from_mapping (add_vertex_into_mapping d p i k) i k = p ∧
      extract_bag_vertex (add_vertex_into_mapping d p i k) i k = d :=
  ⟨remove_add_vertex d p i k hd, extract_add_vertex d p i k hd⟩

theorem C5_witness :
    (1 : ℕ) ≤ 3 ∧ (2 : ℕ) < 3 ∧ (8 : ℕ) < 3 ^ 2 ∧
      (remove_vertex_from_mapping (add_vertex_into_mapping 2 8 2 3) 2 3 = 8 ∧
        extract_bag_vertex (add_vertex_into_mapping 2 8 2 3) 2 3 = 2) :=
  ⟨by decide, by decide, by decide,
    C5_codec_round_trip 3 8 2 2 (by decide) (by decide) (by decide)⟩

/-- C6: for the empty pattern graph the spec says the count is `1` (and
brute force indeed gives `1` for every target graph), but the code path
returns a nice tree decomposition with no nodes
(`make_nice_tree_decomposition`'s empty branch), so the driver's
`sorted(nice_tree_decomp)[0]` has no node to return — the model of the
root lookup is `none` (an `IndexError`), not a normal result. -/
theorem C6_empty_pattern_crashes :
    driver_root make_nice_tree_decomposition_empty = none ∧
      ∀ H : FinGraph, count_homomorphisms_brute emptyGraph H = 1 :=
  ⟨rfl, fun H => rfl⟩

/-- C7: the dense (adjacency-matrix) and sparse edge tests in the intro
step produce identical DP tables and final counts for every input — the
`density_threshold` affects performance only, never the result. -/
theorem C7_density_threshold_result_invariant (G H : FinGraph) (T : NTD) :
    dpTableDense G H T = dpTable G H T ∧
      dpCountDense G H T = dpCount G H T := by
  refine ⟨dpTableDense_eq G H T, ?_⟩
  unfold dpCountDense dpCount
  rw [dpTableDense_eq]

/-- C8 counterexample: with a 2-vertex pattern, a 2-vertex target,
`colourful = true`, `graph_clr = [0]` (wrong length: 1 ≠ 2) and
`target_clr = [0, 0]`, the claim says the `MissingColouring` error is
raised, but the init guard does not fire — lengths are never checked. -/
theorem C8_counterexample :
    ¬ (missing_colouring_check true (some [0]) (some [0, 0]) = true ↔
      (true = true ∧ ((some [0] : Option (List ℕ)) = none ∨
        (some [0, 0] : Option (List ℕ)) = none ∨
        ([0] : List ℕ).length ≠ 2 ∨ ([0, 0] : List ℕ).length ≠ 2))) := by
  decide

/-- C8 (amended): the `MissingColouring` error is raised exactly when
`colourful` is true and `graph_clr` or `target_clr` is absent (`None`);
the lengths of the colour lists are not validated, and when `colourful`
is false the colour arguments are never required. -/
theorem C8_missing_colouring_none_only (colourful : Bool)
    (graph_clr target_clr : Option (List ℕ)) :
    missing_colouring_check colourful graph_clr target_clr = true ↔
      colourful = true ∧ (graph_clr = none ∨ target_clr = none) := by
  unfold missing_colouring_check
  cases colourful <;> cases graph_clr <;> cases target_clr <;> simp

/-- C9: in the colourful branch of `_add_intro_node_best`, at the first
intro node of `K_2 → K_2` with uniform colours (`graph_clr = [0]` on the
bag, `target_clr = [0, 0]`), the compressed table has length `2` but the
second candidate target is written at index `4 = 0 + 1 * 2^max_colour_size`
— past the end of the table (`IndexError`), so the colourful count cannot
equal the uncoloured count. -/
theorem C9_colourful_write_overflows :
    colourful_mappings_length [0] [0, 0] = 2 ∧
      max_colour_size [0] [0, 0] = 2 ∧
      colourful_write_index 0 0 1 2 [0] [0, 0] = 4 ∧
      colourful_mappings_length [0] [0, 0] ≤
        colourful_write_index 0 0 1 2 [0] [0, 0] := by
  decide

/-- C10: the codec performs no validation of the digit range: in general
`remove(insert(p, i, d), i) = p + (d / k) * k^i` and
`extract(insert(p, i, d), i) = d % k`, so the round trip holds exactly
when `d < k`. -/
theorem C10_codec_general_formula (k p i d : ℕ) (hk : 1 ≤ k) :
    remove_vertex_from_mapping (add_vertex_into_mapping d p i k) i k =
        p + d / k * k ^ i ∧
      extract_bag_vertex (add_vertex_into_mapping d p i k) i k = d % k ∧
      (remove_vertex_from_mapping (add_vertex_into_mapping d p i k) i k = p ↔
        d < k) := by
  have hk0 : 0 < k := hk
  refine ⟨remove_add_vertex_general d p i k hk0,
    extract_add_vertex_general d p i k hk0, ?_, ?_⟩
  · intro h
    by_contra hd
    push_neg at hd
    have hdk : 1 ≤ d / k := (Nat.one_le_div_iff hk0).2 hd
    have hki : 0 < k ^ i := by positivity
    rw [remove_add_vertex_general d p i k hk0] at h
    have hprod : 1 * 1 ≤ d / k * k ^ i := Nat.mul_le_mul hdk hki
    omega
  · intro hd
    rw [remove_add_vertex_general d p i k hk0, Nat.div_eq_of_lt hd]
    simp

theorem C10_witness :
    (1 : ℕ) ≤ 2 ∧
      (remove_vertex_from_mapping (add_vertex_into_mapping 5 1 1 2) 1 2 =
          1 + 5 / 2 * 2 ^ 1 ∧
        extract_bag_vertex (add_vertex_into_mapping 5 1 1 2) 1 2 = 5 % 2 ∧
        (remove_vertex_from_mapping (add_vertex_into_mapping 5 1 1 2) 1 2 = 1 ↔
          (5 : ℕ) < 2)) :=
  ⟨by decide, C10_codec_general_formula 2 1 1 5 (by decide)⟩

end CountGraphHoms
